import Mathlib

/-
Verification of the tenant-resolution middleware of use-next-ship.

The middleware source consists of four pieces:
  - normalizeAndValidateHost : host-header validation and normalization,
  - isSlugValid              : tenant-slug validation,
  - resolveTenantByHostname  : tenant lookup against an internal endpoint,
  - middleware               : the request pipeline (400 / root pass-through /
                               404 / header injection / path rewrite).

Strings are modelled as List Char.  JavaScript string primitives
(toLowerCase, trim, startsWith, endsWith, slice, split, includes) are
modelled on the ASCII fragment, which is the fragment the host regex and
the slug regex accept.  The single network call of resolveTenantByHostname
is modelled by an explicit FetchOutcome oracle, and the request it issues
is returned as data so that theorems can speak about it.
-/

/-- ASCII lowercase map, the action of toLowerCase on the ASCII range. -/
def jsToLower (c : Char) : Char :=
  if 'A' ≤ c && c ≤ 'Z' then Char.ofNat (c.toNat + 32) else c

/-- Lowercasing of a whole string. -/
def toLowerList (l : List Char) : List Char := l.map jsToLower

/-- Whitespace characters removed by trim (ASCII fragment). -/
def wsChar (c : Char) : Bool :=
  c = ' ' || c = '\t' || c = '\n' || c = '\r' || c = Char.ofNat 11 || c = Char.ofNat 12

/-- Left trim: drop leading whitespace. -/
def trimLeft (l : List Char) : List Char := l.dropWhile wsChar

/-- Right trim: drop trailing whitespace. -/
def trimRight (l : List Char) : List Char := (l.reverse.dropWhile wsChar).reverse

/-- JavaScript trim on the ASCII fragment. -/
def trimList (l : List Char) : List Char := trimRight (trimLeft l)

/-- Substring test: does l contain p as a contiguous substring. -/
def containsSub (p l : List Char) : Bool :=
  p.isPrefixOf l ||
    match l with
    | [] => false
    | _ :: t => containsSub p t

/-- Characters allowed in the host part of the host regex: [a-z0-9.-]. -/
def isHostChar (c : Char) : Bool :=
  ('a' ≤ c && c ≤ 'z') || ('0' ≤ c && c ≤ '9') || c = '.' || c = '-'

/-- Decimal digit test. -/
def isDigitChar (c : Char) : Bool := '0' ≤ c && c ≤ '9'

/-- True for every character other than the colon. -/
def notColon (c : Char) : Bool := !(c == ':')

/-- Test of the host regex of the source: [a-z0-9.-]+ optionally followed
by a colon and one to five digits. -/
def hostRegexTest (l : List Char) : Bool :=
  let base := l.takeWhile notColon
  (!base.isEmpty) && base.all isHostChar &&
    (match l.dropWhile notColon with
     | [] => true
     | _ :: ds => (!ds.isEmpty) && decide (ds.length ≤ 5) && ds.all isDigitChar)

/-- The apostrophe character. -/
def quoteChar1 : Char := Char.ofNat 39

/-- The double-quote character. -/
def quoteChar2 : Char := Char.ofNat 34

/-- The backquote character. -/
def quoteChar3 : Char := Char.ofNat 96

/-- The opening curly brace character. -/
def braceOpen : Char := Char.ofNat 123

/-- The closing curly brace character. -/
def braceClose : Char := Char.ofNat 125

/-- The string javascript: as a character list. -/
def jsProto : List Char := ['j','a','v','a','s','c','r','i','p','t',':']

/-- The suspicious-pattern test of the source: double dot, angle brackets,
quote characters, curly braces, or a javascript: substring.  The input is
already lowercased, so the case-insensitive flag of the last pattern is
absorbed. -/
def srcSuspicious (l : List Char) : Bool :=
  containsSub ['.', '.'] l ||
  l.any (fun c => c == '<' || c == '>') ||
  l.any (fun c => c == quoteChar1 || c == quoteChar2 || c == quoteChar3) ||
  l.any (fun c => c == braceOpen || c == braceClose) ||
  containsSub jsProto l

/-- Removal of a single trailing dot, the replace of the source. -/
def stripTrailingDot (l : List Char) : List Char :=
  if l.getLast? = some '.' then l.dropLast else l

/-- Host-header validation and normalization, translated from
normalizeAndValidateHost of the middleware source: reject absent or empty
headers, lowercase and trim, test the host regex and the 253-character
bound, test the suspicious patterns, then strip the port, a trailing dot
and a leading www. label. -/
def normalizeAndValidateHost (hostHeader : Option (List Char)) : Option (List Char) :=
  match hostHeader with
  | none => none
  | some hh =>
    if hh.isEmpty then none
    else
      let raw := trimList (toLowerList hh)
      if !(hostRegexTest raw) || decide (raw.length > 253) then none
      else if srcSuspicious raw then none
      else
        let host := stripTrailingDot (raw.takeWhile notColon)
        some (if ("www.".toList).isPrefixOf host then host.drop 4 else host)

/-- The reserved slugs of the source. -/
def RESERVED_SLUGS : List (List Char) :=
  ["api", "_next", "static", "public", "admin", "healthz",
   ".well-known", "favicon.ico", "robots.txt", "sitemap.xml"].map String.toList

/-- Characters allowed by the slug regex: [a-z0-9-]. -/
def isSlugChar (c : Char) : Bool :=
  ('a' ≤ c && c ≤ 'z') || ('0' ≤ c && c ≤ '9') || c = '-'

/-- Test of the slug regex of the source: [a-z0-9-] repeated 3 to 63 times. -/
def slugRegexTest (s : List Char) : Bool :=
  decide (3 ≤ s.length) && decide (s.length ≤ 63) && s.all isSlugChar

/-- Tenant-slug validation, translated from isSlugValid of the middleware
source: reject reserved slugs, test the slug regex, reject leading or
trailing hyphens and double hyphens. -/
def isSlugValid (s : List Char) : Bool :=
  if RESERVED_SLUGS.contains s then false
  else if !(slugRegexTest s) then false
  else if (['-']).isPrefixOf s || (['-']).isSuffixOf s || containsSub ['-', '-'] s then false
  else true

/-- Tenant payload, the TenantInfo record of the source.  An empty slug
models a JSON payload whose slug field is empty or missing (both are falsy
in the source). -/
structure TenantInfo where
  id : List Char
  slug : List Char
  customDomain : Option (List Char)
deriving DecidableEq, Repr

/-- Static configuration of the middleware: the root domain derived from
the base URL, and the optional internal API secret. -/
structure Config where
  rootDomain : List Char
  internalApiSecret : Option (List Char)
deriving DecidableEq, Repr

/-- Possible outcomes of the single fetch performed by the resolver.
timeout models the AbortError of the cancellation timer, netError any
other rejection of fetch, badJson a body that fails JSON parsing, okNull a
JSON null body (whose field access throws and is caught), httpError a
non-ok response status, and ok a parsed tenant payload. -/
inductive FetchOutcome where
  | timeout
  | netError
  | badJson
  | okNull
  | httpError (status : Nat)
  | ok (t : TenantInfo)
deriving DecidableEq, Repr

/-- The lookup request the resolver issues: method, URL path, query
parameters and headers. -/
structure LookupRequest where
  method : List Char
  path : List Char
  slugParam : Option (List Char)
  hostnameParam : List Char
  headers : List (List Char × List Char)
deriving DecidableEq, Repr

/-- Authentication headers of the internal call: the shared secret when it
is configured and truthy, else the backward-compatible marker header. -/
def internalHeaders (cfg : Config) : List (List Char × List Char) :=
  match cfg.internalApiSecret with
  | some s =>
      if s.isEmpty then [("x-internal-call".toList, "tenant-resolver".toList)]
      else [("x-internal-secret".toList, s)]
  | none => [("x-internal-call".toList, "tenant-resolver".toList)]

/-- Tenant resolution, translated from resolveTenantByHostname of the
middleware source.  The first component is the value the source returns;
the second is the request issued to the internal endpoint, or none when
the source returns before fetching.  The fetch itself is replaced by the
outcome oracle. -/
def resolveTenantByHostname (cfg : Config) (hostname : List Char)
    (outcome : FetchOutcome) : Option TenantInfo × Option LookupRequest :=
  let suffix := '.' :: cfg.rootDomain
  let gate : Option (Option (List Char)) :=
    if suffix.isSuffixOf hostname then
      let slug := hostname.take (hostname.length - suffix.length)
      if (!slug.isEmpty) && isSlugValid slug then some (some slug) else none
    else some none
  match gate with
  | none => (none, none)
  | some slugParam =>
    let req : LookupRequest :=
      { method := "GET".toList
        path := "/api/internal/tenant/resolve".toList
        slugParam := slugParam
        hostnameParam := hostname
        headers := internalHeaders cfg }
    let result : Option TenantInfo :=
      match outcome with
      | .ok t => if (!t.slug.isEmpty) && !(isSlugValid t.slug) then none else some t
      | _ => none
    (result, some req)

/-- Header map update with the set semantics of the Headers class: replace
any existing entry of the key. -/
def setHeader (k v : List Char) (hs : List (List Char × List Char)) :
    List (List Char × List Char) :=
  (k, v) :: hs.filter (fun p => !(p.1 == k))

/-- Header map lookup. -/
def getHeader (k : List Char) (hs : List (List Char × List Char)) :
    Option (List Char) :=
  (hs.find? (fun p => p.1 == k)).map (fun p => p.2)

/-- The five headers the middleware sets on the forwarded request, applied
on top of the original request headers. -/
def tenantHeaders (t : TenantInfo) (originalHost : List Char) (now start : Nat)
    (reqHeaders : List (List Char × List Char)) : List (List Char × List Char) :=
  setHeader "x-middleware-start".toList (Nat.toDigits 10 start) (
  setHeader "x-tenant-timestamp".toList (Nat.toDigits 10 now) (
  setHeader "x-tenant-domain".toList (t.customDomain.getD originalHost) (
  setHeader "x-tenant-slug".toList t.slug (
  setHeader "x-tenant-id".toList t.id reqHeaders))))

/-- Terminal outcomes of the middleware: 400, pass-through for the root
domain, 404, pass-through with injected headers, and a rewrite carrying
the new path, the preserved query string and the injected headers. -/
inductive MwResponse where
  | badRequest
  | rootPass
  | notFound
  | nextWithHeaders (headers : List (List Char × List Char))
  | rewrite (path search : List Char) (headers : List (List Char × List Char))
deriving DecidableEq, Repr

/-- The middleware pipeline, translated from the middleware function of
the source.  now and start stand for the two Date.now() readings; the
second component is the lookup request issued during resolution, if any. -/
def middleware (cfg : Config) (hostHeader : Option (List Char))
    (pathname search : List Char) (outcome : FetchOutcome) (now start : Nat)
    (reqHeaders : List (List Char × List Char)) :
    MwResponse × Option LookupRequest :=
  match normalizeAndValidateHost hostHeader with
  | none => (.badRequest, none)
  | some originalHost =>
    if originalHost.isEmpty then (.badRequest, none)
    else if originalHost = cfg.rootDomain then (.rootPass, none)
    else
      match resolveTenantByHostname cfg originalHost outcome with
      | (none, req) => (.notFound, req)
      | (some tenant, req) =>
        let hs := tenantHeaders tenant originalHost now start reqHeaders
        if ("/s/".toList ++ tenant.slug).isPrefixOf pathname
            || ("/api".toList).isPrefixOf pathname
            || ("/healthz".toList).isPrefixOf pathname
        then (.nextWithHeaders hs, req)
        else (.rewrite ("/s/".toList ++ tenant.slug ++ pathname) search hs, req)

/-- Slug validity re-expressed in the order the spec words it: matches the
slug regex, has no leading hyphen, no trailing hyphen, no double hyphen,
and is not a reserved word. -/
def specSlugOk (s : List Char) : Bool :=
  slugRegexTest s && !((['-']).isPrefixOf s) && !((['-']).isSuffixOf s) &&
    !(containsSub ['-', '-'] s) && !(RESERVED_SLUGS.contains s)

/-- The failure outcomes of the lookup call: timeout, network error,
unparseable or null body, any non-ok status, or a payload whose slug is
nonempty and fails validation. -/
def isFailureOutcome : FetchOutcome → Bool
  | .ok t => (!t.slug.isEmpty) && !(isSlugValid t.slug)
  | _ => true

/-- Suspicious host-header content as the spec words it: a double dot, an
angle bracket, a quote character, a curly brace, or (case-insensitively) a
javascript: substring. -/
def suspiciousInput (h : List Char) : Bool :=
  containsSub ['.', '.'] h ||
  h.any (fun c => c == '<' || c == '>' || c == quoteChar1 || c == quoteChar2 ||
    c == quoteChar3 || c == braceOpen || c == braceClose) ||
  containsSub jsProto (toLowerList h)

/-- Sanity conditions on a configured root domain, under which the
root-domain variant claims are provable: nonempty, made of host
characters, free of double dots, not starting or ending with a dot,
neither www.-prefixed nor a prefix of www., not ending in the letters
javascript (which would collide with the javascript: filter once a port
is appended), and short enough that every variant stays within the
253-character bound. -/
def saneRoot (root : List Char) : Bool :=
  (!root.isEmpty) && root.all isHostChar &&
  !(containsSub ['.', '.'] root) &&
  !(root.head? == some '.') &&
  !(root.getLast? == some '.') &&
  !(("www.".toList).isPrefixOf root) &&
  !(root.isPrefixOf ("www.".toList)) &&
  !(("javascript".toList).isSuffixOf root) &&
  decide (root.length ≤ 242)

/-- A payload whose slug field is empty, used to exercise the unvalidated
path of the resolver. -/
def tEmptySlug : TenantInfo := ⟨"org-1".toList, [], none⟩

/-- A resolved tenant used by concrete instantiations. -/
def tAcme : TenantInfo := ⟨"org-1".toList, "acme".toList, none⟩

/-- A configuration used by concrete instantiations. -/
def cfgEx : Config := ⟨"example.com".toList, none⟩

/-- A configuration with a shared secret, used by concrete instantiations. -/
def cfgSecret : Config := ⟨"example.com".toList, some ("s3cret-key".toList)⟩

/-- The lookup request the resolver issues for acme.example.com under
cfgSecret. -/
def reqAcmeSecret : LookupRequest :=
  { method := "GET".toList
    path := "/api/internal/tenant/resolve".toList
    slugParam := some ("acme".toList)
    hostnameParam := "acme.example.com".toList
    headers := [("x-internal-secret".toList, "s3cret-key".toList)] }

/-- The lookup request the resolver issues for acme.example.com under
cfgEx. -/
def reqAcme : LookupRequest :=
  { method := "GET".toList
    path := "/api/internal/tenant/resolve".toList
    slugParam := some ("acme".toList)
    hostnameParam := "acme.example.com".toList
    headers := [("x-internal-call".toList, "tenant-resolver".toList)] }

example : normalizeAndValidateHost (some ("WWW.Example.COM:443".toList)) =
    some ("example.com".toList) := by decide

example : normalizeAndValidateHost (some (".".toList)) = some [] := by decide

example : normalizeAndValidateHost (some ("a..b".toList)) = none := by decide

example : isSlugValid ("acme".toList) = true := by decide

example : isSlugValid ("ab".toList) = false := by decide

example : isSlugValid ("api".toList) = false := by decide

example : containsSub ("lo wo".toList) ("hello world".toList) = true := by decide

example : containsSub ("low".toList) ("hello world".toList) = false := by decide

/-
Helper lemmas.
-/

/-- Bridge between the Bool prefix test and the inductive prefix relation. -/
theorem prefixOf_eq {l₁ l₂ : List Char} : l₁.isPrefixOf l₂ = true ↔ l₁ <+: l₂ :=
  List.isPrefixOf_iff_prefix

/-- Bridge between the Bool suffix test and the inductive suffix relation. -/
theorem suffixOf_eq {l₁ l₂ : List Char} : l₁.isSuffixOf l₂ = true ↔ l₁ <:+ l₂ :=
  List.isSuffixOf_iff_suffix

/-- The substring test decides the infix relation. -/
theorem containsSub_spec {p l : List Char} : containsSub p l = true ↔ p <:+: l := by
  induction l with
  | nil =>
    rw [containsSub]
    simp [prefixOf_eq]
  | cons c t ih =>
    rw [containsSub]
    simp only [Bool.or_eq_true, prefixOf_eq, ih]
    exact (List.infix_cons_iff).symm

/-- Characters of a substring are characters of the string. -/
theorem mem_of_sub {c : Char} {p l : List Char} (hc : c ∈ p) (h : p <:+: l) : c ∈ l :=
  List.Sublist.mem hc (List.IsInfix.sublist h)

/-- A singleton is a prefix exactly when it is the head. -/
theorem singleton_prefix_head {y : Char} {b : List Char} : [y] <+: b ↔ b.head? = some y := by
  cases b with
  | nil => simp
  | cons d b' => simp [List.cons_prefix_cons, eq_comm]

/-- A two-character list is not an infix of a singleton. -/
theorem pair_not_infix_singleton {x y c : Char} : ¬ ([x, y] <:+: [c]) := by
  intro h
  have hl := List.Sublist.length_le (List.IsInfix.sublist h)
  simp at hl

/-- A two-character substring of a concatenation lies in the left part, in
the right part, or straddles the junction. -/
theorem infix_pair_append {x y : Char} {a b : List Char} :
    [x, y] <:+: (a ++ b) ↔
      [x, y] <:+: a ∨ [x, y] <:+: b ∨ (a.getLast? = some x ∧ b.head? = some y) := by
  induction a with
  | nil => simp
  | cons c t ih =>
    cases t with
    | nil =>
      rw [List.singleton_append, List.infix_cons_iff, List.cons_prefix_cons,
        singleton_prefix_head]
      simp only [List.getLast?_singleton, List.head?_cons, Option.some.injEq]
      constructor
      · rintro (⟨rfl, hh⟩ | hin)
        · exact Or.inr (Or.inr ⟨rfl, hh⟩)
        · exact Or.inr (Or.inl hin)
      · rintro (habs | hin | ⟨rfl, hh⟩)
        · exact absurd habs pair_not_infix_singleton
        · exact Or.inr hin
        · exact Or.inl ⟨rfl, hh⟩
    | cons e t' =>
      constructor
      · intro h
        rw [List.cons_append] at h
        rcases List.infix_cons_iff.mp h with hpre | hin
        · rcases List.cons_prefix_cons.mp hpre with ⟨rfl, h2⟩
          rw [List.cons_append] at h2
          rcases List.cons_prefix_cons.mp h2 with ⟨rfl, _⟩
          exact Or.inl (List.IsPrefix.isInfix ⟨t', rfl⟩)
        · rcases ih.mp hin with hin' | hin' | hlast
          · exact Or.inl (List.infix_cons_iff.mpr (Or.inr hin'))
          · exact Or.inr (Or.inl hin')
          · exact Or.inr (Or.inr (by rw [List.getLast?_cons_cons]; exact hlast))
      · intro h
        rw [List.cons_append]
        rcases h with hin | hin | hlast
        · rcases List.infix_cons_iff.mp hin with hpre | hin'
          · rcases List.cons_prefix_cons.mp hpre with ⟨rfl, h2⟩
            rcases List.cons_prefix_cons.mp h2 with ⟨rfl, _⟩
            refine List.infix_cons_iff.mpr (Or.inl ?_)
            exact List.cons_prefix_cons.mpr ⟨rfl, List.cons_prefix_cons.mpr ⟨rfl, by simp⟩⟩
          · exact List.infix_cons_iff.mpr (Or.inr (ih.mpr (Or.inl hin')))
        · exact List.infix_cons_iff.mpr (Or.inr (ih.mpr (Or.inr (Or.inl hin))))
        · rw [List.getLast?_cons_cons] at hlast
          exact List.infix_cons_iff.mpr (Or.inr (ih.mpr (Or.inr (Or.inr hlast))))

/-- Decomposition of a suffix of a concatenation: either it is a suffix of
the right part, or it covers the whole right part and a nonempty suffix of
the left part. -/
theorem suffix_append_cases {p a b : List Char} (h : p <:+ a ++ b) :
    p <:+ b ∨ ∃ s, s ≠ [] ∧ s <:+ a ∧ s ++ b = p := by
  rcases h with ⟨t, ht⟩
  rcases List.append_eq_append_iff.mp ht with ⟨a', ha1, ha2⟩ | ⟨c', hc1, hc2⟩
  · cases a' with
    | nil =>
      left
      rw [ha2]
      simp
    | cons x a'' =>
      right
      exact ⟨x :: a'', by simp, ⟨t, ha1.symm⟩, ha2.symm⟩
  · left
    exact ⟨c', hc2.symm⟩

/-- If a character occurs exactly once in a list, an occurrence of a
pattern ending in that character must align with it. -/
theorem pattern_align_unique {c : Char} {w a b : List Char}
    (hca : c ∉ a) (hcb : c ∉ b)
    (h : (w ++ [c]) <:+: (a ++ c :: b)) : w <:+ a := by
  rcases h with ⟨s, t, hst⟩
  have hst' : (s ++ w) ++ ([c] ++ t) = a ++ ([c] ++ b) := by
    simpa [List.append_assoc] using hst
  rcases List.append_eq_append_iff.mp hst' with ⟨a', ha1, ha2⟩ | ⟨c', hc1, hc2⟩
  · cases a' with
    | nil =>
      rw [List.append_nil] at ha1
      exact ⟨s, ha1.symm⟩
    | cons x a'' =>
      exfalso
      apply hca
      have hx : c = x := by
        have h0 := congrArg List.head? ha2
        simpa using h0
      rw [ha1, hx]
      simp
  · cases c' with
    | nil =>
      rw [List.append_nil] at hc1
      exact ⟨s, hc1⟩
    | cons x c'' =>
      exfalso
      apply hcb
      have hb : b = c'' ++ ([c] ++ t) := by
        have h0 := congrArg List.tail hc2
        simpa using h0
      rw [hb]
      simp

/-- takeWhile runs through a left part all of whose elements satisfy the
predicate. -/
theorem takeWhile_append_all {q : Char → Bool} {a b : List Char}
    (h : ∀ c ∈ a, q c = true) : (a ++ b).takeWhile q = a ++ b.takeWhile q := by
  induction a with
  | nil => simp
  | cons c t ih =>
    have hc : q c = true := h c (List.mem_cons_self c t)
    have ht : ∀ x ∈ t, q x = true := fun x hx => h x (List.mem_cons_of_mem c hx)
    simp [List.takeWhile_cons, hc, ih ht]

/-- dropWhile runs through a left part all of whose elements satisfy the
predicate. -/
theorem dropWhile_append_all {q : Char → Bool} {a b : List Char}
    (h : ∀ c ∈ a, q c = true) : (a ++ b).dropWhile q = b.dropWhile q := by
  induction a with
  | nil => simp
  | cons c t ih =>
    have hc : q c = true := h c (List.mem_cons_self c t)
    have ht : ∀ x ∈ t, q x = true := fun x hx => h x (List.mem_cons_of_mem c hx)
    simp [List.dropWhile_cons, hc, ih ht]

/-- dropWhile halts immediately on a head that fails the predicate. -/
theorem dropWhile_cons_stop {q : Char → Bool} {c : Char} {t : List Char}
    (h : q c = false) : (c :: t).dropWhile q = c :: t := by
  simp [List.dropWhile_cons, h]

/-- If dropWhile leaves a list unchanged and the list is a cons, the head
fails the predicate. -/
theorem dropWhile_fix_head {q : Char → Bool} {c : Char} {t : List Char}
    (h : (c :: t).dropWhile q = c :: t) : q c = false := by
  by_contra hq
  rw [Bool.not_eq_false] at hq
  rw [List.dropWhile_cons, if_pos hq] at h
  have hsuf : List.dropWhile q t <:+ t := List.dropWhile_suffix q
  have hle := List.Sublist.length_le (List.IsSuffix.sublist hsuf)
  rw [h] at hle
  simp at hle

/-- The head of a nonempty dropWhile result fails the predicate. -/
theorem dropWhile_head_false {q : Char → Bool} {l : List Char} {c : Char} {t : List Char}
    (h : l.dropWhile q = c :: t) : q c = false := by
  induction l with
  | nil => simp at h
  | cons a l ih =>
    rw [List.dropWhile_cons] at h
    by_cases ha : q a = true
    · rw [if_pos ha] at h
      exact ih h
    · rw [if_neg ha] at h
      cases h
      exact Bool.not_eq_true _ |>.mp ha

/-- A list with no whitespace is unchanged by left trim. -/
theorem trimLeft_eq_self {l : List Char} (h : ∀ c ∈ l, wsChar c = false) :
    trimLeft l = l := by
  cases l with
  | nil => rfl
  | cons c t =>
    exact dropWhile_cons_stop (h c (List.mem_cons_self c t))

/-- A list with no whitespace is unchanged by right trim. -/
theorem trimRight_eq_self {l : List Char} (h : ∀ c ∈ l, wsChar c = false) :
    trimRight l = l := by
  unfold trimRight
  have hr : l.reverse.dropWhile wsChar = l.reverse := by
    cases hrev : l.reverse with
    | nil => simp
    | cons c t =>
      apply dropWhile_cons_stop
      apply h
      rw [← List.mem_reverse, hrev]
      exact List.mem_cons_self c t
  rw [hr, List.reverse_reverse]

/-- A list with no whitespace is unchanged by trim. -/
theorem trimList_eq_self {l : List Char} (h : ∀ c ∈ l, wsChar c = false) :
    trimList l = l := by
  unfold trimList
  rw [trimLeft_eq_self h, trimRight_eq_self h]

/-- dropWhile over a concatenation whose right part it cannot enter. -/
theorem dropWhile_append_stop {q : Char → Bool} {b : List Char}
    (hb : b.dropWhile q = b) (a : List Char) :
    ∃ a', (a ++ b).dropWhile q = a' ++ b := by
  induction a with
  | nil => exact ⟨[], by simpa using hb⟩
  | cons c t ih =>
    rw [List.cons_append, List.dropWhile_cons]
    by_cases hc : q c = true
    · rw [if_pos hc]
      exact ih
    · rw [if_neg hc]
      exact ⟨c :: t, rfl⟩

/-- Trim preserves a whitespace-free nonempty substring. -/
theorem infix_trimList {p l : List Char} (hp : p ≠ [])
    (hws : ∀ c ∈ p, wsChar c = false) (h : p <:+: l) : p <:+: trimList l := by
  rcases h with ⟨s, t, hst⟩
  have hl : l = s ++ (p ++ t) := by rw [← hst]; simp [List.append_assoc]
  have hstop1 : (p ++ t).dropWhile wsChar = p ++ t := by
    cases p with
    | nil => exact absurd rfl hp
    | cons c p' => exact dropWhile_cons_stop (hws c (List.mem_cons_self c p'))
  obtain ⟨s', hs'⟩ := dropWhile_append_stop hstop1 s
  have hleft : trimLeft l = s' ++ (p ++ t) := by
    rw [hl]
    exact hs'
  have hrev : (trimLeft l).reverse = t.reverse ++ (p.reverse ++ s'.reverse) := by
    rw [hleft]
    simp [List.reverse_append, List.append_assoc]
  have hstop2 : (p.reverse ++ s'.reverse).dropWhile wsChar = p.reverse ++ s'.reverse := by
    cases hpr : p.reverse with
    | nil =>
      rw [List.reverse_eq_nil_iff] at hpr
      exact absurd hpr hp
    | cons c pr =>
      apply dropWhile_cons_stop
      apply hws
      rw [← List.mem_reverse, hpr]
      exact List.mem_cons_self c pr
  obtain ⟨t', ht'⟩ := dropWhile_append_stop hstop2 t.reverse
  refine ⟨s', t'.reverse, ?_⟩
  unfold trimList trimRight
  rw [hrev, ht']
  simp [List.reverse_append, List.append_assoc]

/-- takeWhile swallows a list all of whose elements satisfy the predicate. -/
theorem takeWhile_all {q : Char → Bool} {a : List Char}
    (h : ∀ c ∈ a, q c = true) : a.takeWhile q = a := by
  have h2 := @takeWhile_append_all q a [] h
  simpa using h2

/-- dropWhile exhausts a list all of whose elements satisfy the predicate. -/
theorem dropWhile_all {q : Char → Bool} {a : List Char}
    (h : ∀ c ∈ a, q c = true) : a.dropWhile q = [] := by
  have h2 := @dropWhile_append_all q a [] h
  simpa using h2

/-- The host characters, spelled out. -/
theorem isHostChar_cases {c : Char} (h : isHostChar c = true) :
    ('a' ≤ c ∧ c ≤ 'z') ∨ ('0' ≤ c ∧ c ≤ '9') ∨ c = '.' ∨ c = '-' := by
  simpa [isHostChar, Bool.or_eq_true, Bool.and_eq_true, decide_eq_true_eq, or_assoc] using h

/-- Host characters are never uppercase letters. -/
theorem isHostChar_not_upper {c : Char} (h : isHostChar c = true) :
    ¬ ('A' ≤ c ∧ c ≤ 'Z') := by
  rintro ⟨h1, h2⟩
  rcases isHostChar_cases h with ⟨ha, _⟩ | ⟨_, hb⟩ | rfl | rfl
  · exact absurd (le_trans ha h2) (by decide)
  · exact absurd (le_trans h1 hb) (by decide)
  · exact absurd h1 (by decide)
  · exact absurd h1 (by decide)

/-- Host characters are not the colon. -/
theorem isHostChar_ne_colon {c : Char} (h : isHostChar c = true) : c ≠ ':' := by
  rintro rfl
  exact absurd h (by decide)

/-- Host characters pass the colon filter. -/
theorem isHostChar_notColon {c : Char} (h : isHostChar c = true) : notColon c = true := by
  have hne := isHostChar_ne_colon h
  simp [notColon, hne]

/-- The whitespace characters, spelled out. -/
theorem wsChar_vals {c : Char} (h : wsChar c = true) :
    c = ' ' ∨ c = '\t' ∨ c = '\n' ∨ c = '\r' ∨ c = Char.ofNat 11 ∨ c = Char.ofNat 12 := by
  simpa [wsChar, Bool.or_eq_true, decide_eq_true_eq, or_assoc] using h

/-- Host characters are not whitespace. -/
theorem isHostChar_not_ws {c : Char} (h : isHostChar c = true) : wsChar c = false := by
  by_contra hw
  rw [Bool.not_eq_false] at hw
  rcases wsChar_vals hw with rfl | rfl | rfl | rfl | rfl | rfl <;>
    exact absurd h (by decide)

/-- Digits are not whitespace. -/
theorem isDigitChar_not_ws {c : Char} (h : isDigitChar c = true) : wsChar c = false := by
  by_contra hw
  rw [Bool.not_eq_false] at hw
  rcases wsChar_vals hw with rfl | rfl | rfl | rfl | rfl | rfl <;>
    exact absurd h (by decide)

/-- Digits are neither the colon nor the dot. -/
theorem isDigitChar_ne {c : Char} (h : isDigitChar c = true) : c ≠ ':' ∧ c ≠ '.' := by
  constructor <;> rintro rfl <;> exact absurd h (by decide)

/-- An impossible substring, in Bool form. -/
theorem containsSub_eq_false {p l : List Char} (h : ¬ p <:+: l) :
    containsSub p l = false := by
  cases hb : containsSub p l with
  | false => rfl
  | true => exact absurd (containsSub_spec.mp hb) h

/-- The host regex accepts a nonempty all-host-character list without a
port part. -/
theorem hostRegexTest_intro_noport {base : List Char} (hb : base ≠ [])
    (hbc : ∀ c ∈ base, isHostChar c = true) : hostRegexTest base = true := by
  unfold hostRegexTest
  have hnc : ∀ c ∈ base, notColon c = true := fun c hc => isHostChar_notColon (hbc c hc)
  rw [takeWhile_all hnc, dropWhile_all hnc]
  simp only [List.all_eq_true, Bool.and_eq_true, List.isEmpty_iff, Bool.not_eq_true']
  refine ⟨⟨?_, hbc⟩, trivial⟩
  simpa [List.isEmpty_iff] using hb

/-- The host regex accepts a host part followed by a colon and one to five
digits. -/
theorem hostRegexTest_intro_port {base ds : List Char} (hb : base ≠ [])
    (hbc : ∀ c ∈ base, isHostChar c = true) (hd : ds ≠ []) (hd5 : ds.length ≤ 5)
    (hdc : ∀ c ∈ ds, isDigitChar c = true) :
    hostRegexTest (base ++ ':' :: ds) = true := by
  unfold hostRegexTest
  have hnc : ∀ c ∈ base, notColon c = true := fun c hc => isHostChar_notColon (hbc c hc)
  rw [takeWhile_append_all hnc, dropWhile_append_all hnc]
  have hstop : notColon ':' = false := by decide
  rw [List.takeWhile_cons, if_neg (by simp [hstop]), List.append_nil,
    dropWhile_cons_stop hstop]
  simp only [List.all_eq_true, Bool.and_eq_true, decide_eq_true_eq]
  refine ⟨⟨?_, hbc⟩, ⟨?_, hd5⟩, hdc⟩
  · simpa [List.isEmpty_iff] using hb
  · simpa [List.isEmpty_iff] using hd

/-- What acceptance by the host regex means. -/
theorem hostRegexTest_elim {l : List Char} (h : hostRegexTest l = true) :
    (l.takeWhile notColon ≠ [] ∧ ∀ c ∈ l.takeWhile notColon, isHostChar c = true) ∧
      (l.dropWhile notColon = [] ∨
        ∃ ds, l.dropWhile notColon = ':' :: ds ∧ ds ≠ [] ∧ ds.length ≤ 5 ∧
          ∀ c ∈ ds, isDigitChar c = true) := by
  unfold hostRegexTest at h
  rw [Bool.and_eq_true, Bool.and_eq_true] at h
  obtain ⟨⟨h1, h2⟩, h3⟩ := h
  refine ⟨⟨?_, ?_⟩, ?_⟩
  · intro hnil
    rw [hnil] at h1
    simp at h1
  · intro c hc
    exact List.all_eq_true.mp h2 c hc
  · cases hdrop : l.dropWhile notColon with
    | nil => exact Or.inl rfl
    | cons c ds =>
      right
      have hc : notColon c = false := dropWhile_head_false hdrop
      have hc' : c = ':' := by
        simpa [notColon] using hc
      subst hc'
      rw [hdrop] at h3
      simp only [Bool.and_eq_true, decide_eq_true_eq] at h3
      refine ⟨ds, rfl, ?_, h3.1.2, fun c hcc => List.all_eq_true.mp h3.2 c hcc⟩
      intro hnil
      rw [hnil] at h3
      simp at h3

/-- getLast? is unchanged by drop when the result is nonempty. -/
theorem getLast?_drop_ne_nil {l : List Char} {n : Nat} (h : l.drop n ≠ []) :
    (l.drop n).getLast? = l.getLast? := by
  conv_rhs => rw [← List.take_append_drop n l]
  rw [List.getLast?_append]
  cases hd : (l.drop n).getLast? with
  | none =>
    rw [List.getLast?_eq_none_iff] at hd
    exact absurd hd h
  | some c => simp

/-- Stripping one trailing dot from a double-dot-free list leaves no
trailing dot. -/
theorem stripTrailingDot_no_dot {b : List Char}
    (hdd : ¬ (['.', '.'] <:+: b)) : (stripTrailingDot b).getLast? ≠ some '.' := by
  unfold stripTrailingDot
  by_cases hb : b.getLast? = some '.'
  · rw [if_pos hb]
    intro hdl
    apply hdd
    rcases List.getLast?_eq_some_iff.mp hb with ⟨ys, hys⟩
    have hdrop : b.dropLast = ys := by
      rw [hys, List.dropLast_concat]
    rw [hdrop] at hdl
    rcases List.getLast?_eq_some_iff.mp hdl with ⟨zs, hzs⟩
    exact ⟨zs, [], by rw [hys, hzs]; simp⟩
  · rw [if_neg hb]
    exact hb

/-- Header lookup after setting the same key. -/
theorem getHeader_setHeader_eq {k v : List Char} {hs : List (List Char × List Char)} :
    getHeader k (setHeader k v hs) = some v := by
  simp [getHeader, setHeader, List.find?_cons]

/-- Header lookup after setting a different key. -/
theorem getHeader_setHeader_ne {k k' v : List Char} {hs : List (List Char × List Char)}
    (h : k ≠ k') : getHeader k (setHeader k' v hs) = getHeader k hs := by
  have hk : (k' == k) = false := by
    simp [Ne.symm h]
  unfold getHeader setHeader
  rw [List.find?_cons]
  simp only [hk]
  congr 1
  induction hs with
  | nil => rfl
  | cons p t ih =>
    by_cases hp : p.1 == k'
    · have hpk : (p.1 == k) = false := by
        have : p.1 = k' := by simpa using hp
        simp [this, Ne.symm h]
      rw [List.filter_cons, if_neg (by simp [hp]), List.find?_cons]
      simp only [hpk]
      exact ih
    · rw [List.filter_cons, if_pos (by simp [hp]), List.find?_cons, List.find?_cons]
      by_cases hpk : (p.1 == k) = true
      · simp [hpk]
      · simp only [Bool.not_eq_true] at hpk
        simp only [hpk]
        exact ih

/-- The authentication headers are the shared-secret header when a
nonempty secret is configured, else the fallback marker header. -/
theorem internalHeaders_shape (cfg : Config) :
    (∃ s, cfg.internalApiSecret = some s ∧ s ≠ [] ∧
        internalHeaders cfg = [("x-internal-secret".toList, s)]) ∨
      ((cfg.internalApiSecret = none ∨ cfg.internalApiSecret = some []) ∧
        internalHeaders cfg = [("x-internal-call".toList, "tenant-resolver".toList)]) := by
  unfold internalHeaders
  cases hc : cfg.internalApiSecret with
  | none => exact Or.inr ⟨Or.inl rfl, rfl⟩
  | some s =>
    by_cases hs : s.isEmpty = true
    · right
      rw [List.isEmpty_iff] at hs
      subst hs
      exact ⟨Or.inr rfl, by simp⟩
    · left
      refine ⟨s, rfl, ?_, by simp [hs]⟩
      intro hnil
      subst hnil
      exact hs rfl

/-
Claim theorems.
-/

/-- C6: isSlugValid returns false on every reserved word, true on every
string matching the slug regex with no leading or trailing hyphen, no
double hyphen and not reserved, and false whenever one of these rules is
violated — stated as agreement with the rule-by-rule characterization. -/
theorem isSlugValid_characterization :
    (∀ s ∈ RESERVED_SLUGS, isSlugValid s = false) ∧
    (∀ s, isSlugValid s = specSlugOk s) := by
  constructor
  · intro s hs
    have hc : RESERVED_SLUGS.contains s = true := List.elem_iff.mpr hs
    unfold isSlugValid
    rw [if_pos hc]
  · intro s
    unfold isSlugValid specSlugOk
    cases h1 : RESERVED_SLUGS.contains s <;>
      cases h2 : slugRegexTest s <;>
      cases h3 : (['-']).isPrefixOf s <;>
      cases h4 : (['-']).isSuffixOf s <;>
      cases h5 : containsSub ['-', '-'] s <;>
      simp [h1, h2, h3, h4, h5]

/-- C6 witness: the characterization applied at a concrete slug. -/
theorem isSlugValid_characterization_witness :
    isSlugValid ("api".toList) = false ∧
    isSlugValid ("acme".toList) = specSlugOk ("acme".toList) :=
  ⟨isSlugValid_characterization.1 ("api".toList) (by decide),
   isSlugValid_characterization.2 ("acme".toList)⟩

/-- C7: when the normalized hostname equals the configured root domain the
middleware passes the request through with no rewrite, no tenant headers
and no resolution attempted (the outcome oracle is arbitrary and no lookup
request is issued). -/
theorem root_domain_passthrough (cfg : Config) (header path se : List Char)
    (outcome : FetchOutcome) (now st : Nat) (rh : List (List Char × List Char))
    (hn : normalizeAndValidateHost (some header) = some cfg.rootDomain)
    (hne : cfg.rootDomain ≠ []) :
    middleware cfg (some header) path se outcome now st rh = (.rootPass, none) := by
  unfold middleware
  rw [hn]
  have h1 : cfg.rootDomain.isEmpty = false := by
    simpa [List.isEmpty_iff] using hne
  simp [h1]

/-- C7 witness: a cased, ported variant of the root domain passes through. -/
theorem root_domain_passthrough_witness :
    middleware cfgEx (some ("WWW.Example.COM:443".toList)) ("/dashboard".toList)
      [] .timeout 0 0 [] = (.rootPass, none) :=
  root_domain_passthrough cfgEx _ _ _ _ _ _ _ (by decide) (by decide)

/-- C3: a hostname of the form slug-dot-root-domain whose prefix fails the
slug rules makes the resolver return null with no lookup request issued,
and makes the middleware respond 404. -/
theorem invalid_slug_no_fetch_404 (cfg : Config) (p : List Char)
    (outcome : FetchOutcome) (hp : isSlugValid p = false) :
    resolveTenantByHostname cfg (p ++ '.' :: cfg.rootDomain) outcome = (none, none) ∧
    (∀ header path se now st rh,
      normalizeAndValidateHost (some header) = some (p ++ '.' :: cfg.rootDomain) →
      middleware cfg (some header) path se outcome now st rh = (.notFound, none)) := by
  have hres : resolveTenantByHostname cfg (p ++ '.' :: cfg.rootDomain) outcome
      = (none, none) := by
    unfold resolveTenantByHostname
    have hsuf : ('.' :: cfg.rootDomain).isSuffixOf (p ++ '.' :: cfg.rootDomain) = true :=
      suffixOf_eq.mpr ⟨p, rfl⟩
    have hlen : (p ++ '.' :: cfg.rootDomain).length - ('.' :: cfg.rootDomain).length
        = p.length := by
      simp
    have htake : (p ++ '.' :: cfg.rootDomain).take p.length = p :=
      List.take_left p ('.' :: cfg.rootDomain)
    simp [hsuf, hlen, htake, hp]
  refine ⟨hres, ?_⟩
  intro header path se now st rh hn
  unfold middleware
  rw [hn]
  have hne : (p ++ '.' :: cfg.rootDomain).isEmpty = false := by
    simp [List.isEmpty_iff]
  have hneq : p ++ '.' :: cfg.rootDomain ≠ cfg.rootDomain := by
    intro he
    have hlen := congrArg List.length he
    simp at hlen
    omega
  simp [hne, hneq, hres]

/-- C3 witness: the statement applied to the too-short slug ab. -/
theorem invalid_slug_no_fetch_404_witness :
    resolveTenantByHostname cfgEx ("ab.example.com".toList) .timeout = (none, none) ∧
    middleware cfgEx (some ("ab.example.com".toList)) ("/x".toList) [] .timeout 0 0 []
      = (.notFound, none) := by
  have h := invalid_slug_no_fetch_404 cfgEx ("ab".toList) .timeout (by decide)
  exact ⟨h.1, h.2 ("ab.example.com".toList) ("/x".toList) [] 0 0 [] (by decide)⟩

/-- C1: whenever a tenant is resolved and the path starts with none of the
tenant-scoped prefix, /api and /healthz, the middleware rewrites the path
to /s/slug plus the original path, preserves the query string, and sets
the x-tenant-slug header to the slug. -/
theorem resolved_tenant_rewrite (cfg : Config) (header oh path se : List Char)
    (outcome : FetchOutcome) (t : TenantInfo) (req : Option LookupRequest)
    (now st : Nat) (rh : List (List Char × List Char))
    (hn : normalizeAndValidateHost (some header) = some oh)
    (hoh : oh ≠ [])
    (hroot : oh ≠ cfg.rootDomain)
    (hres : resolveTenantByHostname cfg oh outcome = (some t, req))
    (h1 : ("/s/".toList ++ t.slug).isPrefixOf path = false)
    (h2 : ("/api".toList).isPrefixOf path = false)
    (h3 : ("/healthz".toList).isPrefixOf path = false) :
    middleware cfg (some header) path se outcome now st rh =
      (.rewrite ("/s/".toList ++ t.slug ++ path) se (tenantHeaders t oh now st rh), req) ∧
    getHeader ("x-tenant-slug".toList) (tenantHeaders t oh now st rh) = some t.slug := by
  constructor
  · unfold middleware
    rw [hn]
    have hne : oh.isEmpty = false := by
      simpa [List.isEmpty_iff] using hoh
    have h1' : ¬ (("/s/".toList ++ t.slug) <+: path) := by
      rw [← prefixOf_eq, h1]
      exact Bool.false_ne_true
    have h2' : ¬ (("/api".toList) <+: path) := by
      rw [← prefixOf_eq, h2]
      exact Bool.false_ne_true
    have h3' : ¬ (("/healthz".toList) <+: path) := by
      rw [← prefixOf_eq, h3]
      exact Bool.false_ne_true
    simp [hne, hroot, hres]
    exact ⟨⟨by simpa using h1', by simpa using h2'⟩, by simpa using h3'⟩
  · unfold tenantHeaders
    rw [getHeader_setHeader_ne (by decide), getHeader_setHeader_ne (by decide),
      getHeader_setHeader_ne (by decide), getHeader_setHeader_eq]

/-- C1 witness: acme.example.com with path /dashboard is rewritten to
/s/acme/dashboard with the x-tenant-slug header set to acme. -/
theorem resolved_tenant_rewrite_witness :
    middleware cfgEx (some ("acme.example.com".toList)) ("/dashboard".toList)
        ("a=1".toList) (.ok tAcme) 7 3 [] =
      (.rewrite ("/s/".toList ++ tAcme.slug ++ "/dashboard".toList) ("a=1".toList)
        (tenantHeaders tAcme ("acme.example.com".toList) 7 3 []), some reqAcme) ∧
    getHeader ("x-tenant-slug".toList)
        (tenantHeaders tAcme ("acme.example.com".toList) 7 3 []) = some tAcme.slug :=
  resolved_tenant_rewrite cfgEx ("acme.example.com".toList) ("acme.example.com".toList)
    ("/dashboard".toList) ("a=1".toList) (.ok tAcme) tAcme (some reqAcme) 7 3 []
    (by decide) (by decide) (by decide) (by decide) (by decide) (by decide) (by decide)

/-- C4 amended: the resolver maps every failure outcome — timeout, network
error, unparseable or null body, non-ok status, or a payload whose slug is
nonempty and invalid — to null; a payload whose slug is empty is returned
without validation (or rejected earlier without any fetch). -/
theorem resolver_error_paths (cfg : Config) (hostname : List Char) :
    (∀ outcome, isFailureOutcome outcome = true →
      (resolveTenantByHostname cfg hostname outcome).1 = none) ∧
    (∀ t : TenantInfo, t.slug = [] →
      (resolveTenantByHostname cfg hostname (.ok t)).1 = some t ∨
      resolveTenantByHostname cfg hostname (.ok t) = (none, none)) := by
  constructor
  · intro outcome ho
    unfold resolveTenantByHostname
    simp only []
    by_cases hsuf : ('.' :: cfg.rootDomain).isSuffixOf hostname = true
    · by_cases hv : ((!(hostname.take
          (hostname.length - ('.' :: cfg.rootDomain).length)).isEmpty) &&
          isSlugValid (hostname.take
            (hostname.length - ('.' :: cfg.rootDomain).length))) = true
      · rw [if_pos hsuf, if_pos hv]
        cases outcome with
        | ok t =>
          have ho' : ((!t.slug.isEmpty) && !(isSlugValid t.slug)) = true := by
            simpa [isFailureOutcome] using ho
          simp only []
          rw [if_pos ho']
        | timeout => rfl
        | netError => rfl
        | badJson => rfl
        | okNull => rfl
        | httpError status => rfl
      · rw [if_pos hsuf, if_neg hv]
    · rw [if_neg hsuf]
      cases outcome with
      | ok t =>
        have ho' : ((!t.slug.isEmpty) && !(isSlugValid t.slug)) = true := by
          simpa [isFailureOutcome] using ho
        simp only []
        rw [if_pos ho']
      | timeout => rfl
      | netError => rfl
      | badJson => rfl
      | okNull => rfl
      | httpError status => rfl
  · intro t ht
    unfold resolveTenantByHostname
    simp only []
    have hts : ((!t.slug.isEmpty) && !(isSlugValid t.slug)) = false := by
      rw [ht]
      rfl
    by_cases hsuf : ('.' :: cfg.rootDomain).isSuffixOf hostname = true
    · by_cases hv : ((!(hostname.take
          (hostname.length - ('.' :: cfg.rootDomain).length)).isEmpty) &&
          isSlugValid (hostname.take
            (hostname.length - ('.' :: cfg.rootDomain).length))) = true
      · left
        rw [if_pos hsuf, if_pos hv]
        simp only []
        rw [if_neg (by simp [hts])]
      · right
        rw [if_pos hsuf, if_neg hv]
    · left
      rw [if_neg hsuf]
      simp only []
      rw [if_neg (by simp [hts])]

/-- C4 witness: the failure outcomes at a concrete hostname. -/
theorem resolver_error_paths_witness :
    (resolveTenantByHostname cfgEx ("acme.example.com".toList) .timeout).1 = none ∧
    (resolveTenantByHostname cfgEx ("acme.example.com".toList) (.httpError 500)).1 = none :=
  ⟨(resolver_error_paths cfgEx ("acme.example.com".toList)).1 .timeout (by decide),
   (resolver_error_paths cfgEx ("acme.example.com".toList)).1 (.httpError 500) (by decide)⟩

/-- C4 counterexample: a payload whose slug is empty — hence invalid under
isSlugValid — is returned as-is rather than mapped to null. -/
theorem empty_invalid_slug_payload_returned :
    isSlugValid tEmptySlug.slug = false ∧
    (resolveTenantByHostname cfgEx ("acme.example.com".toList)
      (.ok tEmptySlug)).1 = some tEmptySlug := by decide

/-- C8 counterexample: the lookup request path is
/api/internal/tenant/resolve, not /internal/tenant/resolve as the claim
states. -/
theorem lookup_path_not_bare :
    ((resolveTenantByHostname cfgEx ("acme.example.com".toList)
        .timeout).2).map LookupRequest.path
      = some ("/api/internal/tenant/resolve".toList) ∧
    "/api/internal/tenant/resolve".toList ≠ "/internal/tenant/resolve".toList := by
  decide

/-- C8 amended: every lookup request the resolver issues is a GET to
/api/internal/tenant/resolve (relative to the base URL) carrying the full
hostname and, when derived, the valid candidate slug as query parameters,
authenticated by x-internal-secret when a nonempty secret is configured
and by x-internal-call: tenant-resolver otherwise. -/
theorem lookup_request_shape (cfg : Config) (hostname : List Char)
    (outcome : FetchOutcome) (req : LookupRequest)
    (h : (resolveTenantByHostname cfg hostname outcome).2 = some req) :
    req.method = "GET".toList ∧
    req.path = "/api/internal/tenant/resolve".toList ∧
    req.hostnameParam = hostname ∧
    (req.slugParam = none ∨
      ∃ slug, req.slugParam = some slug ∧ isSlugValid slug = true ∧
        slug ++ '.' :: cfg.rootDomain = hostname) ∧
    ((∃ s, cfg.internalApiSecret = some s ∧ s ≠ [] ∧
        req.headers = [("x-internal-secret".toList, s)]) ∨
      ((cfg.internalApiSecret = none ∨ cfg.internalApiSecret = some []) ∧
        req.headers = [("x-internal-call".toList, "tenant-resolver".toList)])) := by
  unfold resolveTenantByHostname at h
  simp only [] at h
  by_cases hsuf : ('.' :: cfg.rootDomain).isSuffixOf hostname = true
  · by_cases hv : ((!(hostname.take
        (hostname.length - ('.' :: cfg.rootDomain).length)).isEmpty) &&
        isSlugValid (hostname.take
          (hostname.length - ('.' :: cfg.rootDomain).length))) = true
    · rw [if_pos hsuf, if_pos hv] at h
      simp only [] at h
      have hreq := (Option.some.inj h).symm
      subst hreq
      refine ⟨rfl, rfl, rfl, ?_, internalHeaders_shape cfg⟩
      right
      obtain ⟨a, ha⟩ := suffixOf_eq.mp hsuf
      have hlen2 : hostname.length - ('.' :: cfg.rootDomain).length = a.length := by
        rw [← ha]
        simp
      have htake : hostname.take (hostname.length - ('.' :: cfg.rootDomain).length) = a := by
        rw [hlen2, ← ha]
        exact List.take_left a ('.' :: cfg.rootDomain)
      have hv2 : isSlugValid (hostname.take
          (hostname.length - ('.' :: cfg.rootDomain).length)) = true := by
        have h2 := hv
        simp only [Bool.and_eq_true] at h2
        exact h2.2
      refine ⟨hostname.take (hostname.length - ('.' :: cfg.rootDomain).length), rfl,
        hv2, ?_⟩
      rw [htake]
      exact ha
    · rw [if_pos hsuf, if_neg hv] at h
      simp at h
  · rw [if_neg hsuf] at h
    simp only [] at h
    have hreq := (Option.some.inj h).symm
    subst hreq
    exact ⟨rfl, rfl, rfl, Or.inl rfl, internalHeaders_shape cfg⟩

/-- C8 witness: the amended statement at a concrete configured-secret
lookup. -/
theorem lookup_request_shape_witness :
    reqAcmeSecret.method = "GET".toList ∧
    reqAcmeSecret.path = "/api/internal/tenant/resolve".toList ∧
    reqAcmeSecret.hostnameParam = "acme.example.com".toList ∧
    (reqAcmeSecret.slugParam = none ∨
      ∃ slug, reqAcmeSecret.slugParam = some slug ∧ isSlugValid slug = true ∧
        slug ++ '.' :: cfgSecret.rootDomain = "acme.example.com".toList) ∧
    ((∃ s, cfgSecret.internalApiSecret = some s ∧ s ≠ [] ∧
        reqAcmeSecret.headers = [("x-internal-secret".toList, s)]) ∨
      ((cfgSecret.internalApiSecret = none ∨ cfgSecret.internalApiSecret = some []) ∧
        reqAcmeSecret.headers = [("x-internal-call".toList, "tenant-resolver".toList)])) :=
  lookup_request_shape cfgSecret ("acme.example.com".toList) .timeout reqAcmeSecret
    (by decide)

/-- Any of the seven forbidden single characters present in a list makes
the suspicious test fire. -/
theorem srcSuspicious_of_badchar {c : Char} {l : List Char}
    (hc : c = '<' ∨ c = '>' ∨ c = quoteChar1 ∨ c = quoteChar2 ∨ c = quoteChar3 ∨
      c = braceOpen ∨ c = braceClose) (hm : c ∈ l) : srcSuspicious l = true := by
  have hA : (l.any (fun x => x == '<' || x == '>') = true) ∨
      (l.any (fun x => x == quoteChar1 || x == quoteChar2 || x == quoteChar3) = true) ∨
      (l.any (fun x => x == braceOpen || x == braceClose) = true) := by
    rcases hc with rfl | rfl | rfl | rfl | rfl | rfl | rfl
    · exact Or.inl (List.any_eq_true.mpr ⟨'<', hm, by decide⟩)
    · exact Or.inl (List.any_eq_true.mpr ⟨'>', hm, by decide⟩)
    · exact Or.inr (Or.inl (List.any_eq_true.mpr ⟨quoteChar1, hm, by decide⟩))
    · exact Or.inr (Or.inl (List.any_eq_true.mpr ⟨quoteChar2, hm, by decide⟩))
    · exact Or.inr (Or.inl (List.any_eq_true.mpr ⟨quoteChar3, hm, by decide⟩))
    · exact Or.inr (Or.inr (List.any_eq_true.mpr ⟨braceOpen, hm, by decide⟩))
    · exact Or.inr (Or.inr (List.any_eq_true.mpr ⟨braceClose, hm, by decide⟩))
  unfold srcSuspicious
  rcases hA with hA | hA | hA <;> simp [hA]

/-- Suspicious content in the raw header survives lowercasing and
trimming, so the suspicious test of the source fires on the processed
header. -/
theorem suspicious_transport {h : List Char} (hs : suspiciousInput h = true) :
    srcSuspicious (trimList (toLowerList h)) = true := by
  unfold suspiciousInput at hs
  rw [Bool.or_eq_true, Bool.or_eq_true] at hs
  rcases hs with (hdd | hany) | hjs
  · have hin : ['.', '.'] <:+: h := containsSub_spec.mp hdd
    have hdot : jsToLower '.' = '.' := by decide
    have hin2 : ['.', '.'] <:+: toLowerList h := by
      obtain ⟨a, b, hab⟩ := hin
      refine ⟨toLowerList a, toLowerList b, ?_⟩
      rw [← hab]
      simp [toLowerList, hdot]
    have hin3 : ['.', '.'] <:+: trimList (toLowerList h) :=
      infix_trimList (by simp) (by decide) hin2
    have hc : containsSub ['.', '.'] (trimList (toLowerList h)) = true :=
      containsSub_spec.mpr hin3
    unfold srcSuspicious
    simp [hc]
  · obtain ⟨c, hcmem, hcp⟩ := List.any_eq_true.mp hany
    have hcvals : c = '<' ∨ c = '>' ∨ c = quoteChar1 ∨ c = quoteChar2 ∨ c = quoteChar3 ∨
        c = braceOpen ∨ c = braceClose := by
      simpa [Bool.or_eq_true, or_assoc] using hcp
    have hlow : jsToLower c = c := by
      rcases hcvals with rfl | rfl | rfl | rfl | rfl | rfl | rfl <;> decide
    have hmem2 : c ∈ toLowerList h := by
      rw [← hlow]
      exact List.mem_map_of_mem jsToLower hcmem
    obtain ⟨s, t, hst⟩ := List.append_of_mem hmem2
    have hinf : [c] <:+: toLowerList h := by
      refine ⟨s, t, ?_⟩
      rw [hst]
      simp
    have hws : ∀ x ∈ [c], wsChar x = false := by
      intro x hx
      rw [List.mem_singleton] at hx
      subst hx
      rcases hcvals with rfl | rfl | rfl | rfl | rfl | rfl | rfl <;> decide
    have hinf2 : [c] <:+: trimList (toLowerList h) :=
      infix_trimList (by simp) hws hinf
    have hmem3 : c ∈ trimList (toLowerList h) :=
      mem_of_sub (List.mem_singleton_self c) hinf2
    exact srcSuspicious_of_badchar hcvals hmem3
  · have hin : jsProto <:+: toLowerList h := containsSub_spec.mp hjs
    have hin2 : jsProto <:+: trimList (toLowerList h) :=
      infix_trimList (by decide) (by decide) hin
    have hc : containsSub jsProto (trimList (toLowerList h)) = true :=
      containsSub_spec.mpr hin2
    unfold srcSuspicious
    simp [hc]

/-- C2: every host header containing a double dot, an angle bracket, a
quote character, a curly brace, or a javascript: substring in any letter
case is rejected by normalizeAndValidateHost. -/
theorem suspicious_host_rejected (h : List Char) (hs : suspiciousInput h = true) :
    normalizeAndValidateHost (some h) = none := by
  simp only [normalizeAndValidateHost]
  by_cases hempty : h.isEmpty = true
  · rw [if_pos hempty]
  · rw [if_neg hempty]
    have hsusp : srcSuspicious (trimList (toLowerList h)) = true := suspicious_transport hs
    by_cases hr : ((!(hostRegexTest (trimList (toLowerList h)))) ||
        decide ((trimList (toLowerList h)).length > 253)) = true
    · rw [if_pos hr]
    · rw [if_neg hr, if_pos hsusp]

/-- C2 witness: concrete suspicious headers are rejected. -/
theorem suspicious_host_rejected_witness :
    suspiciousInput ("a..b".toList) = true ∧
    normalizeAndValidateHost (some ("a..b".toList)) = none ∧
    suspiciousInput ("JavaScript:alert".toList) = true ∧
    normalizeAndValidateHost (some ("JavaScript:alert".toList)) = none :=
  ⟨by decide, suspicious_host_rejected ("a..b".toList) (by decide),
   by decide, suspicious_host_rejected ("JavaScript:alert".toList) (by decide)⟩

/-- C9: a non-null normalization result consists only of [a-z0-9.-]
characters — hence contains no colon and no uppercase letter — does not
end with a dot, and is at most 253 characters long; the result can still
be the empty string (input consisting of one dot), and the middleware
answers 400 on it because it treats a falsy normalization result as a
missing host. -/
theorem normalized_host_shape :
    (∀ h r, normalizeAndValidateHost (some h) = some r →
      (∀ c ∈ r, isHostChar c = true) ∧ (':' ∉ r) ∧
      (∀ c ∈ r, ¬ ('A' ≤ c ∧ c ≤ 'Z')) ∧
      r.getLast? ≠ some '.' ∧ r.length ≤ 253) ∧
    normalizeAndValidateHost (some ['.']) = some [] ∧
    (∀ cfg path se outcome now st rh,
      middleware cfg (some ['.']) path se outcome now st rh = (.badRequest, none)) := by
  refine ⟨?_, by decide, ?_⟩
  · intro h r heq
    simp only [normalizeAndValidateHost] at heq
    by_cases hempty : h.isEmpty = true
    · rw [if_pos hempty] at heq
      exact (Option.noConfusion heq)
    rw [if_neg hempty] at heq
    generalize hgen : trimList (toLowerList h) = raw at heq
    by_cases hr1 : ((!(hostRegexTest raw)) || decide (raw.length > 253)) = true
    · rw [if_pos hr1] at heq
      exact (Option.noConfusion heq)
    rw [if_neg hr1] at heq
    by_cases hr2 : srcSuspicious raw = true
    · rw [if_pos hr2] at heq
      exact (Option.noConfusion heq)
    rw [if_neg hr2] at heq
    have hregex : hostRegexTest raw = true ∧ raw.length ≤ 253 := by
      rw [Bool.or_eq_true, not_or] at hr1
      obtain ⟨ha, hb⟩ := hr1
      constructor
      · simpa using ha
      · rw [decide_eq_true_eq] at hb
        omega
    obtain ⟨⟨hbase_ne, hbase_chars⟩, _⟩ := hostRegexTest_elim hregex.1
    have hrr : (if ("www.".toList).isPrefixOf (stripTrailingDot (raw.takeWhile notColon))
        then (stripTrailingDot (raw.takeWhile notColon)).drop 4
        else stripTrailingDot (raw.takeWhile notColon)) = r := Option.some.inj heq
    have hmono1 : ∀ x ∈ stripTrailingDot (raw.takeWhile notColon),
        x ∈ raw.takeWhile notColon := by
      intro x hx
      unfold stripTrailingDot at hx
      by_cases hb : (raw.takeWhile notColon).getLast? = some '.'
      · rw [if_pos hb] at hx
        exact List.Sublist.mem hx (List.dropLast_sublist (raw.takeWhile notColon))
      · rw [if_neg hb] at hx
        exact hx
    have hmono2 : ∀ x ∈ r, x ∈ raw.takeWhile notColon := by
      intro x hx
      rw [← hrr] at hx
      by_cases hw : (("www.".toList).isPrefixOf
          (stripTrailingDot (raw.takeWhile notColon))) = true
      · rw [if_pos hw] at hx
        exact hmono1 x (List.Sublist.mem hx (List.drop_sublist 4 _))
      · rw [if_neg hw] at hx
        exact hmono1 x hx
    have hchars : ∀ c ∈ r, isHostChar c = true :=
      fun c hc => hbase_chars c (hmono2 c hc)
    refine ⟨hchars, ?_, ?_, ?_, ?_⟩
    · intro hcol
      exact isHostChar_ne_colon (hchars ':' hcol) rfl
    · intro c hc
      exact isHostChar_not_upper (hchars c hc)
    · have hpre : (raw.takeWhile notColon) <+: raw :=
        ⟨raw.dropWhile notColon, List.takeWhile_append_dropWhile notColon raw⟩
      have hdd : ¬ (['.', '.'] <:+: raw.takeWhile notColon) := by
        intro hin
        have hin2 : ['.', '.'] <:+: raw :=
          List.IsInfix.trans hin (List.IsPrefix.isInfix hpre)
        apply hr2
        unfold srcSuspicious
        simp [containsSub_spec.mpr hin2]
      have hnd : (stripTrailingDot (raw.takeWhile notColon)).getLast? ≠ some '.' :=
        stripTrailingDot_no_dot hdd
      by_cases hrnil : r = []
      · rw [hrnil]
        simp
      by_cases hw : (("www.".toList).isPrefixOf
          (stripTrailingDot (raw.takeWhile notColon))) = true
      · rw [if_pos hw] at hrr
        rw [← hrr]
        rw [getLast?_drop_ne_nil]
        · exact hnd
        · rw [hrr]
          exact hrnil
      · rw [if_neg hw] at hrr
        rw [← hrr]
        exact hnd
    · have hpre : (raw.takeWhile notColon) <+: raw :=
        ⟨raw.dropWhile notColon, List.takeWhile_append_dropWhile notColon raw⟩
      have hlen1 : (raw.takeWhile notColon).length ≤ raw.length :=
        List.Sublist.length_le (List.IsPrefix.sublist hpre)
      have hlen2 : (stripTrailingDot (raw.takeWhile notColon)).length ≤
          (raw.takeWhile notColon).length := by
        unfold stripTrailingDot
        by_cases hb : (raw.takeWhile notColon).getLast? = some '.'
        · rw [if_pos hb, List.length_dropLast]
          omega
        · rw [if_neg hb]
      have hlen3 : r.length ≤ (stripTrailingDot (raw.takeWhile notColon)).length := by
        rw [← hrr]
        by_cases hw : (("www.".toList).isPrefixOf
            (stripTrailingDot (raw.takeWhile notColon))) = true
        · rw [if_pos hw, List.length_drop]
          omega
        · rw [if_neg hw]
      have := hregex.2
      omega
  · intro cfg path se outcome now st rh
    unfold middleware
    rw [show normalizeAndValidateHost (some ['.']) = some [] from by decide]
    simp

/-- C9 witness: the shape facts applied to a ported, cased header. -/
theorem normalized_host_shape_witness :
    ("example.com".toList).getLast? ≠ some '.' ∧ ("example.com".toList).length ≤ 253 :=
  (normalized_host_shape.1 ("Example.COM:80".toList) ("example.com".toList)
    (by decide)).2.2.2

/-- Bool-level consequence of a substring being impossible. -/
theorem not_infix_of_containsSub_false {p l : List Char}
    (h : containsSub p l = false) : ¬ p <:+: l := by
  intro hin
  rw [containsSub_spec.mpr hin] at h
  cases h

/-- The five components of a negative suspicious test. -/
theorem srcSuspicious_false_parts {l : List Char} (h : srcSuspicious l = false) :
    containsSub ['.', '.'] l = false ∧
    l.any (fun c => c == '<' || c == '>') = false ∧
    l.any (fun c => c == quoteChar1 || c == quoteChar2 || c == quoteChar3) = false ∧
    l.any (fun c => c == braceOpen || c == braceClose) = false ∧
    containsSub jsProto l = false := by
  unfold srcSuspicious at h
  simp only [Bool.or_eq_false_iff] at h
  exact ⟨h.1.1.1.1, h.1.1.1.2, h.1.1.2, h.1.2, h.2⟩

/-- Assembly of a negative suspicious test from its five components. -/
theorem srcSuspicious_false_intro {l : List Char}
    (h1 : containsSub ['.', '.'] l = false)
    (h2 : l.any (fun c => c == '<' || c == '>') = false)
    (h3 : l.any (fun c => c == quoteChar1 || c == quoteChar2 || c == quoteChar3) = false)
    (h4 : l.any (fun c => c == braceOpen || c == braceClose) = false)
    (h5 : containsSub jsProto l = false) : srcSuspicious l = false := by
  unfold srcSuspicious
  rw [h1, h2, h3, h4, h5]
  rfl

/-- Host characters are not angle brackets. -/
theorem isHostChar_bad1 {c : Char} (h : isHostChar c = true) :
    (c == '<' || c == '>') = false := by
  by_contra hb
  rw [Bool.not_eq_false] at hb
  have hc : c = '<' ∨ c = '>' := by simpa using hb
  rcases hc with rfl | rfl <;> exact absurd h (by decide)

/-- Host characters are not quote characters. -/
theorem isHostChar_bad2 {c : Char} (h : isHostChar c = true) :
    (c == quoteChar1 || c == quoteChar2 || c == quoteChar3) = false := by
  by_contra hb
  rw [Bool.not_eq_false] at hb
  have hc : c = quoteChar1 ∨ c = quoteChar2 ∨ c = quoteChar3 := by
    simpa [Bool.or_eq_true, or_assoc] using hb
  rcases hc with rfl | rfl | rfl <;> exact absurd h (by decide)

/-- Host characters are not curly braces. -/
theorem isHostChar_bad3 {c : Char} (h : isHostChar c = true) :
    (c == braceOpen || c == braceClose) = false := by
  by_contra hb
  rw [Bool.not_eq_false] at hb
  have hc : c = braceOpen ∨ c = braceClose := by simpa using hb
  rcases hc with rfl | rfl <;> exact absurd h (by decide)

/-- Digits are host characters. -/
theorem isDigitChar_isHostChar {c : Char} (h : isDigitChar c = true) :
    isHostChar c = true := by
  unfold isDigitChar at h
  unfold isHostChar
  rw [h]
  simp

/-- The last element of a nonempty right part is the last element of the
concatenation. -/
theorem getLast?_append_of_ne_nil {a b : List Char} (hb : b ≠ []) :
    (a ++ b).getLast? = b.getLast? := by
  rw [List.getLast?_append]
  cases hgl : b.getLast? with
  | none =>
    rw [List.getLast?_eq_none_iff] at hgl
    exact absurd hgl hb
  | some c => simp

/-- dropLast is a prefix. -/
theorem dropLast_isPre (l : List Char) : l.dropLast <+: l := by
  cases hgl : l.getLast? with
  | none =>
    rw [List.getLast?_eq_none_iff] at hgl
    subst hgl
    exact List.prefix_refl []
  | some c =>
    obtain ⟨ys, hys⟩ := List.getLast?_eq_some_iff.mp hgl
    rw [hys, List.dropLast_concat]
    exact ⟨[c], rfl⟩

/-- stripTrailingDot yields a prefix of its argument. -/
theorem stripTrailingDot_isPre (l : List Char) : stripTrailingDot l <+: l := by
  unfold stripTrailingDot
  by_cases hb : l.getLast? = some '.'
  · rw [if_pos hb]
    exact dropLast_isPre l
  · rw [if_neg hb]

/-- A trim fixed point is a fixed point of both one-sided trims. -/
theorem trim_parts {l : List Char} (h : trimList l = l) :
    trimLeft l = l ∧ trimRight l = l := by
  have hsuf : trimLeft l <:+ l := List.dropWhile_suffix wsChar
  have hlen2 : ∀ m : List Char, (trimRight m).length ≤ m.length := by
    intro m
    have hs : (m.reverse.dropWhile wsChar) <:+ m.reverse := List.dropWhile_suffix wsChar
    have := List.Sublist.length_le (List.IsSuffix.sublist hs)
    unfold trimRight
    simpa using this
  have heq1 : (trimLeft l).length = l.length := by
    have h3 : (trimList l).length = l.length := by rw [h]
    unfold trimList at h3
    have h4 := hlen2 (trimLeft l)
    have h5 := List.Sublist.length_le (List.IsSuffix.sublist hsuf)
    omega
  have hL : trimLeft l = l := List.IsSuffix.eq_of_length hsuf heq1
  refine ⟨hL, ?_⟩
  unfold trimList at h
  rw [hL] at h
  exact h

/-- Prepending www. to a trim-fixed nonempty list stays trim-fixed. -/
theorem trim_www_append {L : List Char} (hL : L ≠ []) (ht : trimList L = L) :
    trimList ("www.".toList ++ L) = "www.".toList ++ L := by
  obtain ⟨hLft, hRt⟩ := trim_parts ht
  have hrev0 : L.reverse.dropWhile wsChar = L.reverse := by
    have h2 := congrArg List.reverse hRt
    unfold trimRight at h2
    simpa using h2
  unfold trimList trimLeft trimRight
  have h1 : (("www.".toList ++ L).dropWhile wsChar) = "www.".toList ++ L :=
    dropWhile_cons_stop (by decide)
  rw [h1, List.reverse_append]
  have h2 : (L.reverse ++ ("www.".toList).reverse).dropWhile wsChar
      = L.reverse ++ ("www.".toList).reverse := by
    cases hrev : L.reverse with
    | nil => exact absurd (List.reverse_eq_nil_iff.mp hrev) hL
    | cons c t =>
      have hc : wsChar c = false := by
        rw [hrev] at hrev0
        exact dropWhile_fix_head hrev0
      rw [List.cons_append]
      exact dropWhile_cons_stop hc
  rw [h2, List.reverse_append]
  simp

/-- Dropping the four www. characters from a www.-prefixed list. -/
theorem drop_four_www (x : List Char) : ("www.".toList ++ x).drop 4 = x := by
  have h := List.drop_left ("www.".toList) x
  exact h

/-- Evaluation of the validator once the processed header and the branch
conditions are known. -/
theorem normalize_eval {H L : List Char} (hne : H.isEmpty = false)
    (hlow : trimList (toLowerList H) = L)
    (hreg : hostRegexTest L = true) (hlen : L.length ≤ 253)
    (hsusp : srcSuspicious L = false) :
    normalizeAndValidateHost (some H) =
      some (if ("www.".toList).isPrefixOf (stripTrailingDot (L.takeWhile notColon))
        then (stripTrailingDot (L.takeWhile notColon)).drop 4
        else stripTrailingDot (L.takeWhile notColon)) := by
  simp only [normalizeAndValidateHost]
  rw [if_neg (by simp [hne]), hlow]
  have hc1 : ¬ (((!(hostRegexTest L)) || decide (L.length > 253)) = true) := by
    rw [hreg]
    simp only [Bool.not_true, Bool.false_or, decide_eq_true_eq]
    omega
  have hc2 : ¬ (srcSuspicious L = true) := by
    rw [hsusp]
    exact Bool.false_ne_true
  rw [if_neg hc1, if_neg hc2]

/-- What a non-null validator result entails. -/
theorem normalize_some_elim {H r : List Char}
    (h : normalizeAndValidateHost (some H) = some r) :
    H.isEmpty = false ∧
    hostRegexTest (trimList (toLowerList H)) = true ∧
    (trimList (toLowerList H)).length ≤ 253 ∧
    srcSuspicious (trimList (toLowerList H)) = false := by
  simp only [normalizeAndValidateHost] at h
  by_cases hempty : H.isEmpty = true
  · rw [if_pos hempty] at h
    exact absurd h (by simp)
  rw [if_neg hempty] at h
  by_cases h1 : ((!(hostRegexTest (trimList (toLowerList H)))) ||
      decide ((trimList (toLowerList H)).length > 253)) = true
  · rw [if_pos h1] at h
    exact absurd h (by simp)
  rw [if_neg h1] at h
  by_cases h2 : srcSuspicious (trimList (toLowerList H)) = true
  · rw [if_pos h2] at h
    exact absurd h (by simp)
  rw [Bool.or_eq_true, not_or] at h1
  refine ⟨by simpa using hempty, by simpa using h1.1, ?_, by simpa using h2⟩
  have := h1.2
  simp only [decide_eq_true_eq] at this
  omega

/-- Characters of the www. label are host characters. -/
theorem mem_www_chars {c : Char} (hc : c ∈ "www.".toList) : isHostChar c = true := by
  have h0 : "www.".toList = ['w', 'w', 'w', '.'] := rfl
  rw [h0] at hc
  simp only [List.mem_cons, List.not_mem_nil, or_false] at hc
  rcases hc with rfl | rfl | rfl | rfl <;> decide

/-- Core of the www-prefix claim, stated on the processed header: the
www.-prefixed header still passes the three checks, and stripping rules
produce the same final host. -/
theorem strip_www_core {L : List Char} (hreg : hostRegexTest L = true)
    (hsusp : srcSuspicious L = false) (hdot : L.head? ≠ some '.')
    (hwww : (("www.".toList).isPrefixOf L) = false) (hlen : L.length ≤ 249) :
    hostRegexTest ("www.".toList ++ L) = true ∧
    srcSuspicious ("www.".toList ++ L) = false ∧
    ("www.".toList ++ L).length ≤ 253 ∧
    (if ("www.".toList).isPrefixOf
        (stripTrailingDot (("www.".toList ++ L).takeWhile notColon))
      then (stripTrailingDot (("www.".toList ++ L).takeWhile notColon)).drop 4
      else stripTrailingDot (("www.".toList ++ L).takeWhile notColon)) =
    (if ("www.".toList).isPrefixOf (stripTrailingDot (L.takeWhile notColon))
      then (stripTrailingDot (L.takeWhile notColon)).drop 4
      else stripTrailingDot (L.takeWhile notColon)) := by
  obtain ⟨⟨hbne, hbchars⟩, hport⟩ := hostRegexTest_elim hreg
  obtain ⟨hp1, hp2, hp3, hp4, hp5⟩ := srcSuspicious_false_parts hsusp
  have hsplitL : L.takeWhile notColon ++ L.dropWhile notColon = L :=
    List.takeWhile_append_dropWhile notColon L
  have hntc : ∀ c ∈ "www.".toList, notColon c = true := by decide
  have hjs_split : jsProto = "javascript".toList ++ [':'] := by decide
  have htakeB : ("www.".toList ++ L).takeWhile notColon
      = "www.".toList ++ L.takeWhile notColon := takeWhile_append_all hntc
  -- the regex still accepts
  have hregB : hostRegexTest ("www.".toList ++ L) = true := by
    rcases hport with hport | ⟨ds, hds, hdsne, hds5, hdsd⟩
    · have hLbase : L.takeWhile notColon = L := by
        conv_rhs => rw [← hsplitL]
        rw [hport, List.append_nil]
      apply hostRegexTest_intro_noport
      · simp
      · intro c hc
        rcases List.mem_append.mp hc with hc | hc
        · exact mem_www_chars hc
        · rw [← hLbase] at hc
          exact hbchars c hc
    · have hLsplit : L = L.takeWhile notColon ++ ':' :: ds := by
        conv_lhs => rw [← hsplitL]
        rw [hds]
      have hBshape : "www.".toList ++ L
          = ("www.".toList ++ L.takeWhile notColon) ++ ':' :: ds := by
        rw [List.append_assoc, ← hLsplit]
      rw [hBshape]
      apply hostRegexTest_intro_port
      · simp
      · intro c hc
        rcases List.mem_append.mp hc with hc | hc
        · exact mem_www_chars hc
        · exact hbchars c hc
      · exact hdsne
      · exact hds5
      · exact hdsd
  -- the suspicious test still fails
  have hsuspB : srcSuspicious ("www.".toList ++ L) = false := by
    apply srcSuspicious_false_intro
    · apply containsSub_eq_false
      intro hin
      rcases infix_pair_append.mp hin with hin | hin | ⟨hlast, hhead⟩
      · exact not_infix_of_containsSub_false (by decide) hin
      · exact not_infix_of_containsSub_false hp1 hin
      · exact hdot hhead
    · rw [List.any_append]
      have hA : ("www.".toList).any (fun c => c == '<' || c == '>') = false := by decide
      rw [hA, hp2]
      rfl
    · rw [List.any_append]
      have hA : ("www.".toList).any
          (fun c => c == quoteChar1 || c == quoteChar2 || c == quoteChar3) = false := by
        decide
      rw [hA, hp3]
      rfl
    · rw [List.any_append]
      have hA : ("www.".toList).any (fun c => c == braceOpen || c == braceClose)
          = false := by decide
      rw [hA, hp4]
      rfl
    · apply containsSub_eq_false
      intro hin
      rcases hport with hport | ⟨ds, hds, hdsne, hds5, hdsd⟩
      · -- no colon anywhere
        have hcolmem : ':' ∈ "www.".toList ++ L :=
          mem_of_sub (by decide) hin
        rcases List.mem_append.mp hcolmem with hc | hc
        · revert hc
          decide
        · have hLbase : L.takeWhile notColon = L := by
            conv_rhs => rw [← hsplitL]
            rw [hport, List.append_nil]
          rw [← hLbase] at hc
          exact isHostChar_ne_colon (hbchars ':' hc) rfl
      · have hLsplit : L = L.takeWhile notColon ++ ':' :: ds := by
          conv_lhs => rw [← hsplitL]
          rw [hds]
        have hBshape : "www.".toList ++ L
            = ("www.".toList ++ L.takeWhile notColon) ++ ':' :: ds := by
          rw [List.append_assoc, ← hLsplit]
        rw [hjs_split, hBshape] at hin
        have hca : ':' ∉ "www.".toList ++ L.takeWhile notColon := by
          intro hc
          rcases List.mem_append.mp hc with hc | hc
          · revert hc
            decide
          · exact isHostChar_ne_colon (hbchars ':' hc) rfl
        have hcb : ':' ∉ ds := by
          intro hc
          exact (isDigitChar_ne (hdsd ':' hc)).1 rfl
        have hwsuf : "javascript".toList <:+ "www.".toList ++ L.takeWhile notColon :=
          pattern_align_unique hca hcb hin
        rcases suffix_append_cases hwsuf with hsb | ⟨s, hsne, hsw, hsj⟩
        · obtain ⟨u, hu⟩ := hsb
          have : jsProto <:+: L := by
            refine ⟨u, ds, ?_⟩
            rw [hjs_split, hLsplit, ← hu]
            simp [List.append_assoc]
          exact not_infix_of_containsSub_false hp5 this
        · cases s with
          | nil => exact hsne rfl
          | cons c s' =>
            have hcj : c = 'j' := by
              have h0 := congrArg List.head? hsj
              simpa using h0
            have hmem : c ∈ "www.".toList :=
              List.Sublist.mem (List.mem_cons_self c s') (List.IsSuffix.sublist hsw)
            rw [hcj] at hmem
            revert hmem
            decide
  -- the length bound still holds
  have hlenB : ("www.".toList ++ L).length ≤ 253 := by
    rw [List.length_append]
    have h4 : ("www.".toList).length = 4 := by decide
    rw [h4]
    omega
  refine ⟨hregB, hsuspB, hlenB, ?_⟩
  -- the stripping rules agree
  have hnwww_strip : ("www.".toList).isPrefixOf
      (stripTrailingDot (L.takeWhile notColon)) = false := by
    by_contra hb
    rw [Bool.not_eq_false, prefixOf_eq] at hb
    have h1 : stripTrailingDot (L.takeWhile notColon) <+: L.takeWhile notColon :=
      stripTrailingDot_isPre (L.takeWhile notColon)
    have h2 : L.takeWhile notColon <+: L := ⟨L.dropWhile notColon, hsplitL⟩
    have h3 : ("www.".toList) <+: L := (hb.trans h1).trans h2
    rw [← prefixOf_eq] at h3
    rw [h3] at hwww
    cases hwww
  rw [htakeB]
  by_cases hb : (L.takeWhile notColon).getLast? = some '.'
  · have hglB : ("www.".toList ++ L.takeWhile notColon).getLast?
        = some '.' := by
      rw [getLast?_append_of_ne_nil hbne, hb]
    have hstripB : stripTrailingDot ("www.".toList ++ L.takeWhile notColon)
        = "www.".toList ++ (L.takeWhile notColon).dropLast := by
      unfold stripTrailingDot
      rw [if_pos hglB, List.dropLast_append,
        if_neg (by simpa [List.isEmpty_iff] using hbne)]
    have hstripL : stripTrailingDot (L.takeWhile notColon)
        = (L.takeWhile notColon).dropLast := by
      unfold stripTrailingDot
      rw [if_pos hb]
    rw [hstripB, hstripL]
    rw [if_pos (prefixOf_eq.mpr ⟨(L.takeWhile notColon).dropLast, rfl⟩)]
    rw [drop_four_www]
    rw [hstripL] at hnwww_strip
    rw [if_neg (by rw [hnwww_strip]; exact Bool.false_ne_true)]
  · have hglB : ("www.".toList ++ L.takeWhile notColon).getLast?
        = (L.takeWhile notColon).getLast? := getLast?_append_of_ne_nil hbne
    have hstripB : stripTrailingDot ("www.".toList ++ L.takeWhile notColon)
        = "www.".toList ++ L.takeWhile notColon := by
      unfold stripTrailingDot
      rw [if_neg (by rw [hglB]; exact hb)]
    have hstripL : stripTrailingDot (L.takeWhile notColon) = L.takeWhile notColon := by
      unfold stripTrailingDot
      rw [if_neg hb]
    rw [hstripB, hstripL]
    rw [if_pos (prefixOf_eq.mpr ⟨L.takeWhile notColon, rfl⟩)]
    rw [drop_four_www]
    rw [hstripL] at hnwww_strip
    rw [if_neg (by rw [hnwww_strip]; exact Bool.false_ne_true)]

/-- C5 counterexample: www.example.com is a valid hostname, yet prefixing
WWW. changes the normalization result, because only one www. label is
stripped. -/
theorem www_prefix_changes_result :
    normalizeAndValidateHost (some ("www.example.com".toList)) =
      some ("example.com".toList) ∧
    normalizeAndValidateHost (some ("WWW.".toList ++ "www.example.com".toList)) =
      some ("www.example.com".toList) ∧
    ("example.com".toList : List Char) ≠ "www.example.com".toList := by decide

/-- C5 amended: prefixing WWW. leaves the normalization result unchanged
for every valid host header that is stable under lowercasing-and-trimming,
does not itself begin with www. or a dot, and is at most 249 characters
long. -/
theorem normalize_www_invariant (H : List Char)
    (hvalid : normalizeAndValidateHost (some H) ≠ none)
    (htrim : trimList (toLowerList H) = toLowerList H)
    (hwww : (("www.".toList).isPrefixOf (toLowerList H)) = false)
    (hdot : (toLowerList H).head? ≠ some '.')
    (hlen : H.length ≤ 249) :
    normalizeAndValidateHost (some ("WWW.".toList ++ H)) =
      normalizeAndValidateHost (some H) := by
  obtain ⟨r, hr⟩ : ∃ r, normalizeAndValidateHost (some H) = some r := by
    cases hres : normalizeAndValidateHost (some H) with
    | none => exact absurd hres hvalid
    | some r => exact ⟨r, rfl⟩
  obtain ⟨hne, hreg0, hlen0, hsusp0⟩ := normalize_some_elim hr
  rw [htrim] at hreg0 hlen0 hsusp0
  have hLlen : (toLowerList H).length ≤ 249 := by
    unfold toLowerList
    rw [List.length_map]
    exact hlen
  have hLne : toLowerList H ≠ [] := by
    intro h0
    rw [h0] at htrim hwww
    unfold toLowerList at h0
    rw [List.map_eq_nil_iff] at h0
    rw [h0] at hne
    exact absurd hne (by decide)
  obtain ⟨hregB, hsuspB, hlenB, heq⟩ := strip_www_core hreg0 hsusp0 hdot hwww hLlen
  have hmapW : List.map jsToLower ("WWW.".toList) = "www.".toList := by decide
  have hlowB : trimList (toLowerList ("WWW.".toList ++ H)) =
      "www.".toList ++ toLowerList H := by
    have h1 : toLowerList ("WWW.".toList ++ H) = "www.".toList ++ toLowerList H := by
      unfold toLowerList
      rw [List.map_append, hmapW]
    rw [h1]
    exact trim_www_append hLne htrim
  have hBne : ("WWW.".toList ++ H).isEmpty = false := rfl
  rw [normalize_eval hBne hlowB hregB hlenB hsuspB,
    normalize_eval hne htrim hreg0 hlen0 hsusp0, heq]

/-- C5 witness: the amended statement at a concrete valid hostname. -/
theorem normalize_www_invariant_witness :
    normalizeAndValidateHost (some ("WWW.".toList ++ "sub.example.com".toList)) =
      normalizeAndValidateHost (some ("sub.example.com".toList)) :=
  normalize_www_invariant ("sub.example.com".toList) (by decide) (by decide)
    (by decide) (by decide) (by decide)

/-- A prefix short enough to fit in the left part of a concatenation is a
prefix of that part. -/
theorem prefix_of_append_left {p a b : List Char} (h : p <+: a ++ b)
    (hl : p.length ≤ a.length) : p <+: a := by
  obtain ⟨t, ht⟩ := h
  have h1 : (a ++ b).take p.length = p := by
    rw [← ht]
    exact List.take_left p t
  rw [List.take_append_of_le_length hl] at h1
  rw [← h1]
  exact List.take_prefix p.length a

/-- A root that neither starts with www. nor is a prefix of www. keeps any
extension free of a www. prefix. -/
theorem www_not_prefix_variant {root rest : List Char}
    (h6 : ("www.".toList).isPrefixOf root = false)
    (h7 : root.isPrefixOf ("www.".toList) = false) :
    ("www.".toList).isPrefixOf (root ++ rest) = false := by
  by_contra hb
  rw [Bool.not_eq_false, prefixOf_eq] at hb
  by_cases hl : ("www.".toList).length ≤ root.length
  · have hpre := prefix_of_append_left hb hl
    rw [← prefixOf_eq] at hpre
    rw [hpre] at h6
    cases h6
  · push_neg at hl
    obtain ⟨t, ht⟩ := hb
    have hroot : root = ("www.".toList).take root.length := by
      have h1 : ((root ++ rest).take root.length) = root := List.take_left root rest
      rw [← ht, List.take_append_of_le_length (by omega)] at h1
      exact h1.symm
    have hpre : root <+: "www.".toList := by
      rw [hroot]
      exact List.take_prefix root.length ("www.".toList)
    rw [← prefixOf_eq] at hpre
    rw [hpre] at h7
    cases h7

/-- A list with a given suffix ending in c itself ends in c. -/
theorem suffix_getLast {p : List Char} {c : Char} {l : List Char}
    (h : (p ++ [c]) <:+ l) : l.getLast? = some c := by
  obtain ⟨u, hu⟩ := h
  rw [← hu, ← List.append_assoc, List.getLast?_concat]

/-- The head of a concatenation with nonempty left part. -/
theorem head?_append_of_ne_nil {a b : List Char} (ha : a ≠ []) :
    (a ++ b).head? = a.head? := by
  cases a with
  | nil => exact absurd rfl ha
  | cons x t => rfl

/-- Host-character lists never satisfy the angle-bracket scan. -/
theorem any_bad1_false {l : List Char} (h : ∀ c ∈ l, isHostChar c = true) :
    l.any (fun c => c == '<' || c == '>') = false := by
  rw [List.any_eq_false]
  intro c hc
  rw [isHostChar_bad1 (h c hc)]
  exact Bool.false_ne_true

/-- Host-character lists never satisfy the quote scan. -/
theorem any_bad2_false {l : List Char} (h : ∀ c ∈ l, isHostChar c = true) :
    l.any (fun c => c == quoteChar1 || c == quoteChar2 || c == quoteChar3) = false := by
  rw [List.any_eq_false]
  intro c hc
  rw [isHostChar_bad2 (h c hc)]
  exact Bool.false_ne_true

/-- Host-character lists never satisfy the brace scan. -/
theorem any_bad3_false {l : List Char} (h : ∀ c ∈ l, isHostChar c = true) :
    l.any (fun c => c == braceOpen || c == braceClose) = false := by
  rw [List.any_eq_false]
  intro c hc
  rw [isHostChar_bad3 (h c hc)]
  exact Bool.false_ne_true

/-- Evaluation of the three validator checks and the stripping rules on a
root-domain variant: the root followed by an optional trailing dot and an
optional port. -/
theorem root_variant_eval (root B C : List Char)
    (h1 : root ≠ []) (h2 : ∀ c ∈ root, isHostChar c = true)
    (h3 : containsSub ['.', '.'] root = false)
    (h4 : root.head? ≠ some '.') (h5 : root.getLast? ≠ some '.')
    (h6 : ("www.".toList).isPrefixOf root = false)
    (h7 : root.isPrefixOf ("www.".toList) = false)
    (h8 : ("javascript".toList).isSuffixOf root = false)
    (h9 : root.length ≤ 242)
    (hB : B = ['.'] ∨ B = [])
    (hC : C = [] ∨ ∃ ds, C = ':' :: ds ∧ ds ≠ [] ∧ ds.length ≤ 5 ∧
      ∀ c ∈ ds, isDigitChar c = true) :
    hostRegexTest (root ++ B ++ C) = true ∧
    srcSuspicious (root ++ B ++ C) = false ∧
    (root ++ B ++ C).length ≤ 249 ∧
    (root ++ B ++ C).head? ≠ some '.' ∧
    ("www.".toList).isPrefixOf (root ++ B ++ C) = false ∧
    (if ("www.".toList).isPrefixOf
        (stripTrailingDot ((root ++ B ++ C).takeWhile notColon))
      then (stripTrailingDot ((root ++ B ++ C).takeWhile notColon)).drop 4
      else stripTrailingDot ((root ++ B ++ C).takeWhile notColon)) = root := by
  have hBchars : ∀ c ∈ B, isHostChar c = true := by
    rcases hB with rfl | rfl
    · intro c hc
      rw [List.mem_singleton] at hc
      subst hc
      decide
    · intro c hc
      cases hc
  have hRBne : root ++ B ≠ [] := by
    simp [List.append_eq_nil, h1]
  have hRBchars : ∀ c ∈ root ++ B, isHostChar c = true := by
    intro c hc
    rcases List.mem_append.mp hc with hc | hc
    · exact h2 c hc
    · exact hBchars c hc
  have hBnotColon : ∀ c ∈ root ++ B, notColon c = true :=
    fun c hc => isHostChar_notColon (hRBchars c hc)
  have htake : (root ++ B ++ C).takeWhile notColon = root ++ B := by
    rw [takeWhile_append_all hBnotColon]
    rcases hC with rfl | ⟨ds, rfl, _, _, _⟩
    · simp
    · rw [List.takeWhile_cons, if_neg (by decide), List.append_nil]
  have hstrip : stripTrailingDot (root ++ B) = root := by
    rcases hB with rfl | rfl
    · unfold stripTrailingDot
      rw [if_pos (List.getLast?_concat root), List.dropLast_concat]
    · rw [List.append_nil]
      unfold stripTrailingDot
      rw [if_neg h5]
  have hChead : C.head? ≠ some '.' := by
    rcases hC with rfl | ⟨ds, rfl, _, _, _⟩
    · simp
    · simp
  have hCdotfree : '.' ∉ C := by
    rcases hC with rfl | ⟨ds, rfl, _, _, hdsd⟩
    · simp
    · intro hc
      rcases List.mem_cons.mp hc with hc | hc
      · exact absurd hc (by decide)
      · exact (isDigitChar_ne (hdsd '.' hc)).2 rfl
  have hcolRB : ':' ∉ root ++ B := by
    intro hc
    rcases List.mem_append.mp hc with hc | hc
    · exact isHostChar_ne_colon (h2 ':' hc) rfl
    · exact isHostChar_ne_colon (hBchars ':' hc) rfl
  refine ⟨?_, ?_, ?_, ?_, ?_, ?_⟩
  · rcases hC with rfl | ⟨ds, rfl, hdsne, hds5, hdsd⟩
    · rw [List.append_nil]
      exact hostRegexTest_intro_noport hRBne hRBchars
    · exact hostRegexTest_intro_port hRBne hRBchars hdsne hds5 hdsd
  · apply srcSuspicious_false_intro
    · apply containsSub_eq_false
      intro hin
      rcases infix_pair_append.mp hin with hin | hin | ⟨hlast, hhead⟩
      · rcases infix_pair_append.mp hin with hin | hin | ⟨hlast2, hhead2⟩
        · exact not_infix_of_containsSub_false h3 hin
        · rcases hB with rfl | rfl
          · exact pair_not_infix_singleton hin
          · simp at hin
        · exact h5 hlast2
      · exact absurd (mem_of_sub (by decide) hin) hCdotfree
      · exact hChead hhead
    · rw [List.any_append, List.any_append, any_bad1_false h2, any_bad1_false hBchars]
      have hCany : C.any (fun c => c == '<' || c == '>') = false := by
        rcases hC with rfl | ⟨ds, rfl, _, _, hdsd⟩
        · rfl
        · rw [List.any_cons,
            any_bad1_false (fun c hc => isDigitChar_isHostChar (hdsd c hc))]
          decide
      rw [hCany]
      rfl
    · rw [List.any_append, List.any_append, any_bad2_false h2, any_bad2_false hBchars]
      have hCany : C.any
          (fun c => c == quoteChar1 || c == quoteChar2 || c == quoteChar3) = false := by
        rcases hC with rfl | ⟨ds, rfl, _, _, hdsd⟩
        · rfl
        · rw [List.any_cons,
            any_bad2_false (fun c hc => isDigitChar_isHostChar (hdsd c hc))]
          decide
      rw [hCany]
      rfl
    · rw [List.any_append, List.any_append, any_bad3_false h2, any_bad3_false hBchars]
      have hCany : C.any (fun c => c == braceOpen || c == braceClose) = false := by
        rcases hC with rfl | ⟨ds, rfl, _, _, hdsd⟩
        · rfl
        · rw [List.any_cons,
            any_bad3_false (fun c hc => isDigitChar_isHostChar (hdsd c hc))]
          decide
      rw [hCany]
      rfl
    · apply containsSub_eq_false
      intro hin
      rcases hC with rfl | ⟨ds, rfl, hdsne, hds5, hdsd⟩
      · rw [List.append_nil] at hin
        have hcol : ':' ∈ root ++ B := mem_of_sub (by decide) hin
        exact hcolRB hcol
      · have hjs_split : jsProto = "javascript".toList ++ [':'] := by decide
        rw [hjs_split] at hin
        have hcb : ':' ∉ ds := fun hc => (isDigitChar_ne (hdsd ':' hc)).1 rfl
        have hwsuf : "javascript".toList <:+ root ++ B :=
          pattern_align_unique hcolRB hcb hin
        rcases hB with rfl | rfl
        · have hsplit2 : "javascript".toList = "javascrip".toList ++ ['t'] := by decide
          rw [hsplit2] at hwsuf
          have hgl := suffix_getLast hwsuf
          rw [List.getLast?_concat] at hgl
          exact absurd hgl (by decide)
        · rw [List.append_nil] at hwsuf
          have hb := suffixOf_eq.mpr hwsuf
          rw [h8] at hb
          cases hb
  · rw [List.length_append, List.length_append]
    have hBl : B.length ≤ 1 := by
      rcases hB with rfl | rfl <;> decide
    have hCl : C.length ≤ 6 := by
      rcases hC with rfl | ⟨ds, rfl, _, hds5, _⟩
      · decide
      · simp only [List.length_cons]
        omega
    omega
  · rw [head?_append_of_ne_nil hRBne, head?_append_of_ne_nil h1]
    exact h4
  · rw [List.append_assoc]
    exact www_not_prefix_variant h6 h7
  · rw [htake, hstrip, if_neg (by rw [h6]; exact Bool.false_ne_true)]

/-- C10: under a sane root domain, every host header that lowercases to an
optionally www.-prefixed, optionally trailing-dotted, optionally ported
spelling of the root domain (the port being one to five digits) is passed
through unmodified, with no tenant resolution attempted. -/
theorem root_variant_passthrough (cfg : Config) (H : List Char) (w dotv : Bool)
    (C : List Char)
    (hroot : saneRoot cfg.rootDomain = true)
    (hC : C = [] ∨ ∃ ds, C = ':' :: ds ∧ ds ≠ [] ∧ ds.length ≤ 5 ∧
      ∀ c ∈ ds, isDigitChar c = true)
    (hH : toLowerList H = (cond w ("www.".toList) []) ++ cfg.rootDomain ++
      (cond dotv ['.'] []) ++ C) :
    ∀ path se outcome now st rh,
      middleware cfg (some H) path se outcome now st rh = (.rootPass, none) := by
  unfold saneRoot at hroot
  simp only [Bool.and_eq_true, Bool.not_eq_true'] at hroot
  obtain ⟨⟨⟨⟨⟨⟨⟨⟨hr1, hr2⟩, hr3⟩, hr4⟩, hr5⟩, hr6⟩, hr7⟩, hr8⟩, hr9⟩ := hroot
  have h1 : cfg.rootDomain ≠ [] := by
    intro h0
    rw [h0] at hr1
    exact absurd hr1 (by decide)
  have h2 : ∀ c ∈ cfg.rootDomain, isHostChar c = true := List.all_eq_true.mp hr2
  have h4 : cfg.rootDomain.head? ≠ some '.' := by
    rw [beq_eq_false_iff_ne] at hr4
    exact hr4
  have h5 : cfg.rootDomain.getLast? ≠ some '.' := by
    rw [beq_eq_false_iff_ne] at hr5
    exact hr5
  have h9 : cfg.rootDomain.length ≤ 242 := by
    simpa using hr9
  have hB : (cond dotv (['.'] : List Char) []) = ['.'] ∨
      (cond dotv (['.'] : List Char) []) = [] := by
    cases dotv
    · exact Or.inr rfl
    · exact Or.inl rfl
  obtain ⟨hreg, hsusp, hlen, hhead, hwww, hifeq⟩ :=
    root_variant_eval cfg.rootDomain (cond dotv ['.'] []) C
      h1 h2 hr3 h4 h5 hr6 hr7 hr8 h9 hB hC
  have hVws : ∀ c ∈ cfg.rootDomain ++ (cond dotv ['.'] []) ++ C,
      wsChar c = false := by
    intro c hc
    rcases List.mem_append.mp hc with hc | hc
    · rcases List.mem_append.mp hc with hc | hc
      · exact isHostChar_not_ws (h2 c hc)
      · rcases hB with hB' | hB' <;> rw [hB'] at hc
        · rw [List.mem_singleton] at hc
          subst hc
          decide
        · cases hc
    · rcases hC with hC' | ⟨ds, hC', _, _, hdsd⟩ <;> rw [hC'] at hc
      · cases hc
      · rcases List.mem_cons.mp hc with hc | hc
        · subst hc
          decide
        · exact isDigitChar_not_ws (hdsd c hc)
  have hVne : cfg.rootDomain ++ (cond dotv ['.'] []) ++ C ≠ [] := by
    simp [List.append_eq_nil, h1]
  have hne : H.isEmpty = false := by
    cases H with
    | nil =>
      exfalso
      rw [show toLowerList [] = [] from rfl] at hH
      cases w <;> simp only [cond] at hH
      · exact hVne hH.symm
      · exact absurd hH.symm (by simp)
    | cons a t => rfl
  have hnorm : normalizeAndValidateHost (some H) = some cfg.rootDomain := by
    cases w with
    | false =>
      have hH' : toLowerList H = cfg.rootDomain ++ (cond dotv ['.'] []) ++ C := by
        rw [hH]
        rfl
      have hVeq : trimList (toLowerList H)
          = cfg.rootDomain ++ (cond dotv ['.'] []) ++ C := by
        rw [hH']
        exact trimList_eq_self hVws
      rw [normalize_eval hne hVeq hreg (by omega) hsusp, hifeq]
    | true =>
      have hH' : toLowerList H = "www.".toList ++
          (cfg.rootDomain ++ (cond dotv ['.'] []) ++ C) := by
        rw [hH]
        simp [List.append_assoc]
      obtain ⟨hregB, hsuspB, hlenB, heqB⟩ := strip_www_core hreg hsusp hhead hwww hlen
      have hVeq : trimList (toLowerList H) = "www.".toList ++
          (cfg.rootDomain ++ (cond dotv ['.'] []) ++ C) := by
        rw [hH']
        apply trimList_eq_self
        intro c hc
        rcases List.mem_append.mp hc with hc | hc
        · exact isHostChar_not_ws (mem_www_chars hc)
        · exact hVws c hc
      rw [normalize_eval hne hVeq hregB hlenB hsuspB, heqB, hifeq]
  intro path se outcome now st rh
  unfold middleware
  rw [hnorm]
  have h1' : cfg.rootDomain.isEmpty = false := by
    simpa [List.isEmpty_iff] using h1
  simp [h1']

/-- C10 witness: a cased, www.-prefixed, ported variant and a trailing-dot
variant of example.com both pass through. -/
theorem root_variant_passthrough_witness :
    middleware cfgEx (some ("WWW.Example.Com:443".toList)) ("/a".toList) []
      .timeout 0 0 [] = (.rootPass, none) ∧
    middleware cfgEx (some ("example.com.".toList)) ("/a".toList) []
      .timeout 0 0 [] = (.rootPass, none) :=
  ⟨root_variant_passthrough cfgEx ("WWW.Example.Com:443".toList) true false
      (':' :: "443".toList) (by decide)
      (Or.inr ⟨"443".toList, rfl, by decide, by decide, by decide⟩) (by decide)
      ("/a".toList) [] .timeout 0 0 [],
   root_variant_passthrough cfgEx ("example.com.".toList) false true []
      (by decide) (Or.inl rfl) (by decide)
      ("/a".toList) [] .timeout 0 0 []⟩
